import Mathlib

/-!
Formal model of the runforge-cli execution-queue core
(`runforge_cli/queue.py`, `runforge_cli/daemon.py`, `runforge_cli/sweep.py`).

Conventions of the embedding:
* Python dataclasses become Lean structures; JSON timestamps stay opaque
  `String`s ordered lexicographically, exactly as Python compares the ISO
  strings produced by `datetime.now().isoformat()`.
* `list.sort(key=...)` is Python's stable sort.  We model it with
  `List.insertionSort` over the *non-strict* lexicographic key preorder:
  inserting earlier elements in front of later key-equal ones, Mathlib's
  `insertionSort` is stable, so it computes the same list as any stable sort.
* Methods that mutate `self` / raise exceptions become pure functions
  returning the new state / `Except`.
* `datetime.now()` results are passed in as explicit `now : String`
  arguments.
-/

namespace RunForge

/-- Lexicographic comparison of code-point sequences: exactly Python's
`str` comparison, which the queue code applies to ISO timestamps. -/
def charListLe : List Char → List Char → Bool
  | [], _ => true
  | _ :: _, [] => false
  | a :: as, b :: bs => if a < b then true else if b < a then false else charListLe as bs

/-- Python string `<=` on Lean strings, via their code points. -/
def strLe (s t : String) : Prop := charListLe s.data t.data = true

instance : DecidableRel strLe := fun _ _ => inferInstanceAs (Decidable (_ = _))

/-- A single job in the queue (dataclass `Job` of `queue.py`).

The field `requires_gpu` is modelled from the spec: the `Job` dataclass in
`src/queue.py` does not declare it, but `daemon.py` reads `job.requires_gpu`
and the spec lists `requires_gpu` among the scheduling attributes of a job,
so the field of the GPU-aware queue version is added here.  Every operation
taken from `src/queue.py` ignores it and `enqueue` (whose source signature
has no such parameter) sets it to `false`. -/
structure Job where
  job_id : String
  kind : String
  run_id : String
  group_id : Option String
  priority : Int
  requires_gpu : Bool
  state : String
  attempt : Int
  created_at : String
  started_at : Option String := none
  finished_at : Option String := none
  error : Option String := none
deriving DecidableEq, Repr

/-- State of the execution queue (dataclass `QueueState` of `queue.py`). -/
structure QueueState where
  version : Int := 1
  kind : String := "execution_queue"
  max_parallel : Int := 2
  jobs : List Job := []
  last_served_group : Option String := none
deriving DecidableEq, Repr

/-- The character of one decimal digit. -/
def digitChar : Nat → Char
  | 0 => '0' | 1 => '1' | 2 => '2' | 3 => '3' | 4 => '4'
  | 5 => '5' | 6 => '6' | 7 => '7' | 8 => '8' | _ => '9'

/-- Numeric value of a decimal digit character. -/
def digitVal (c : Char) : Nat :=
  if c = '0' then 0 else if c = '1' then 1 else if c = '2' then 2
  else if c = '3' then 3 else if c = '4' then 4 else if c = '5' then 5
  else if c = '6' then 6 else if c = '7' then 7 else if c = '8' then 8 else 9

/-- Fuel-driven digit extraction (structural recursion so that generated
ids evaluate inside the kernel). -/
def natDigitsAux : Nat → Nat → List Char
  | 0, _ => []
  | fuel + 1, n =>
      if n < 10 then [digitChar n]
      else natDigitsAux fuel (n / 10) ++ [digitChar (n % 10)]

/-- Decimal digit string of a natural number (most significant first). -/
def natDigits (n : Nat) : List Char :=
  natDigitsAux (n + 1) n

/-- Zero-padded counter rendering of Python's f-string `f"\x7bn:04d\x7d"`:
the decimal digits of `n`, left-padded with `'0'` to at least 4 characters. -/
def pad4 (n : Nat) : String :=
  String.mk (List.replicate (4 - (natDigits n).length) '0' ++ natDigits n)

/-- Job-id generation (`QueueManager._generate_job_id_unlocked`): the counter
has already been incremented by the caller, `ts` is the formatted current
time. -/
def genJobId (ts : String) (counter : Nat) : String :=
  "job_" ++ ts ++ "_" ++ pad4 counter

/-- Value of a digit string read most-significant-first. -/
def digitsVal (l : List Char) : Nat :=
  l.foldl (fun a c => a * 10 + digitVal c) 0

/-- Recover the counter embedded in a generated job id: the decimal value of
the digit run after the last underscore.  Used only in proofs, to show that
ids generated with distinct counter values are distinct strings. -/
def decCounter (id : String) : Nat :=
  digitsVal ((id.data.reverse.takeWhile (fun c => c ≠ '_')).reverse)

/-- The queue manager's in-process state: the persisted queue document plus
the per-process `_job_counter`. -/
structure Mgr where
  queue : QueueState := {}
  counter : Nat := 0
deriving DecidableEq, Repr

/-- Eligibility filter of `dequeue_next` (`queue.py` lines 291-295):
`j.state == "queued" and (j.group_id is None or j.group_id not in
paused_groups)`. -/
def isEligible (paused : List String) (j : Job) : Bool :=
  j.state == "queued" &&
    (match j.group_id with
     | none => true
     | some g => !(paused.contains g))

/-- Group key used when partitioning jobs into groups (`queue.py` line 303):
`job.group_id if job.group_id else "__ungrouped__"`.  Note the Python
truthiness test: an empty-string group id also lands in the pseudo-group. -/
def groupKey (j : Job) : String :=
  match j.group_id with
  | none => "__ungrouped__"
  | some g => if g = "" then "__ungrouped__" else g

/-- Append job `j` to the entry of group `g`, creating the entry at the end
if absent — the Python `dict`-of-lists construction of `queue.py` lines
301-306 (insertion order = first occurrence of each group). -/
def addToGroups (gs : List (String × List Job)) (g : String) (j : Job) :
    List (String × List Job) :=
  match gs with
  | [] => [(g, [j])]
  | (g', js) :: rest =>
      if g' = g then (g', js ++ [j]) :: rest
      else (g', js) :: addToGroups rest g j

/-- Partition the queued jobs by group key, preserving first-occurrence
order of groups and within-group order of jobs. -/
def groupJobs (queued : List Job) : List (String × List Job) :=
  queued.foldl (fun gs j => addToGroups gs (groupKey j) j) []

/-- Within-group ordering key (`queue.py` line 310): Python sorts by the
tuple `(-j.priority, j.created_at)` ascending, i.e. priority descending then
`created_at` ascending.  This is the non-strict lexicographic preorder on
that key. -/
def leKey (j k : Job) : Prop :=
  k.priority < j.priority ∨ (j.priority = k.priority ∧ strLe j.created_at k.created_at)

instance : DecidableRel leKey := fun _ _ =>
  inferInstanceAs (Decidable (_ ∨ _))

/-- Candidate ordering for the final pick (`queue.py` lines 331, 335, 339):
sort the `(group, job)` pairs by `created_at` ascending. -/
def leCreated (x y : String × Job) : Prop :=
  strLe x.2.created_at y.2.created_at

instance : DecidableRel leCreated := fun _ _ =>
  inferInstanceAs (Decidable (_ = _))

/-- Candidate list: each group's jobs sorted by `(-priority, created_at)`,
keeping the head (`queue.py` lines 308-316). -/
def candidatesOf (queued : List Job) : List (String × Job) :=
  (groupJobs queued).filterMap (fun gj =>
    match List.insertionSort leKey gj.2 with
    | [] => none
    | j :: _ => some (gj.1, j))

/-- Pick the earliest-created candidate: `candidates.sort(key=...created_at)`
followed by `candidates[0]`. -/
def pickEarliest (cands : List (String × Job)) : Option (String × Job) :=
  (List.insertionSort leCreated cands).head?

/-- Round-robin selection among the group candidates (`queue.py` lines
321-340).  `last_served` is tested for Python truthiness (non-`None` and
non-empty). -/
def selectCandidate (last_served : Option String)
    (cands : List (String × Job)) : Option (String × Job) :=
  match last_served with
  | some l =>
      if l ≠ "" ∧ 1 < cands.length then
        if (cands.filter (fun c => c.1 ≠ l)).isEmpty then pickEarliest cands
        else pickEarliest (cands.filter (fun c => c.1 ≠ l))
      else pickEarliest cands
  | none => pickEarliest cands

/-- Mark the first job with the given id as running (`queue.py` lines
343-347). -/
def markRunning (jobs : List Job) (jid : String) (now : String) : List Job :=
  match jobs with
  | [] => []
  | j :: rest =>
      if j.job_id = jid then
        { j with state := "running", started_at := some now } :: rest
      else j :: markRunning rest jid now

/-- The body of `dequeue_next` past the eligibility filter (`queue.py`
lines 297-352), shared between the source `dequeue_next` and the GPU-aware
variant, which differ only in the filter producing `queued`.  Returns the
dequeued job (the code returns the selected `Job` object, which is the very
list element that was just mutated to `running`), the resulting queue state,
and whether `save_queue` was called. -/
def dequeueCore (s : QueueState) (queued : List Job) (now : String) :
    Option Job × QueueState × Bool :=
  if queued.isEmpty then (none, s, false)
  else if (candidatesOf queued).isEmpty then (none, s, false)
  else
    match selectCandidate s.last_served_group (candidatesOf queued) with
    | none => (none, s, false)
    | some (gid, sel) =>
        (some { sel with state := "running", started_at := some now },
         { s with jobs := markRunning s.jobs sel.job_id now,
                  last_served_group := some gid }, true)

/-- `QueueManager.dequeue_next` (`queue.py` lines 272-352). -/
def dequeue_next (s : QueueState) (paused : List String) (now : String) :
    Option Job × QueueState × Bool :=
  dequeueCore s (s.jobs.filter (isEligible paused)) now

/-- Modelled from the spec: the GPU-aware `dequeue_next(paused_groups,
gpu_slots_available)`.  `daemon.py` line 338 calls `dequeue_next` with a
second `gpu_slots_available` argument and the spec defines eligibility as
state `queued` AND group not paused AND (`requires_gpu == false` OR
`gpu_avail > 0`), but the `dequeue_next` in `src/queue.py` takes no GPU
argument — the GPU-aware queue version is missing from the source tree.
Everything past the eligibility filter is the algorithm of `src/queue.py`
lines 297-352. -/
def dequeueNextGpu (s : QueueState) (paused : List String)
    (gpu_slots_available : Int) (now : String) :
    Option Job × QueueState × Bool :=
  dequeueCore s
    (s.jobs.filter
      (fun j => isEligible paused j && (!j.requires_gpu || 0 < gpu_slots_available)))
    now

/-- Duplicate test of `enqueue` (`queue.py` line 255):
`job.run_id == run_id and job.state in ("queued", "running")`. -/
def isActiveFor (run_id : String) (j : Job) : Bool :=
  j.run_id == run_id && (j.state == "queued" || j.state == "running")

/-- Number of jobs with the given `run_id` that are simultaneously `queued`
or `running`. -/
def activeCount (s : QueueState) (run_id : String) : Nat :=
  s.jobs.countP (isActiveFor run_id)

/-- `QueueManager.enqueue` (`queue.py` lines 243-270).  On a duplicate
active `run_id` the code raises `ValueError` before generating a job id or
writing, so the manager state is unchanged; this is the spec's
`DuplicateRunError`.  On success the counter is bumped and the new job is
appended and saved. -/
def enqueue (m : Mgr) (run_id : String) (group_id : Option String)
    (priority : Int) (now : String) : Except String (Job × Mgr) :=
  if m.queue.jobs.any (isActiveFor run_id) then
    .error ("Run " ++ run_id ++ " is already queued or running")
  else
    let counter := m.counter + 1
    let job : Job :=
      { job_id := genJobId now counter
        kind := "run"
        run_id := run_id
        group_id := group_id
        priority := priority
        requires_gpu := false
        state := "queued"
        attempt := 1
        created_at := now }
    .ok (job, { queue := { m.queue with jobs := m.queue.jobs ++ [job] },
                counter := counter })

/-- Set the first job with the given id to `succeeded`/`failed`
(`queue.py` lines 358-363).  Note that the code does not check the job's
current state. -/
def completeFirst (jobs : List Job) (jid : String) (success : Bool)
    (error : Option String) (now : String) : List Job :=
  match jobs with
  | [] => []
  | j :: rest =>
      if j.job_id = jid then
        { j with
          state := if success then "succeeded" else "failed"
          finished_at := some now
          error := error } :: rest
      else j :: completeFirst rest jid success error now

/-- `QueueManager.complete_job` (`queue.py` lines 354-364). -/
def complete_job (s : QueueState) (jid : String) (success : Bool)
    (error : Option String) (now : String) : QueueState :=
  { s with jobs := completeFirst s.jobs jid success error now }

/-- Cancel the first job with the given id if it is queued (`queue.py`
lines 366-378); returns the new state and the boolean result. -/
def cancelFirst (jobs : List Job) (jid : String) (now : String) :
    List Job × Bool :=
  match jobs with
  | [] => ([], false)
  | j :: rest =>
      if j.job_id = jid then
        if j.state = "queued" then
          ({ j with state := "canceled", finished_at := some now } :: rest, true)
        else (j :: rest, false)
      else
        (j :: (cancelFirst rest jid now).1, (cancelFirst rest jid now).2)

/-- `QueueManager.cancel_job`. -/
def cancel_job (s : QueueState) (jid : String) (now : String) :
    QueueState × Bool :=
  let (jobs', ok) := cancelFirst s.jobs jid now
  ({ s with jobs := jobs' }, ok)

/-- `QueueManager.cancel_group` (`queue.py` lines 380-392): flip every
queued job of the group to `canceled`. -/
def cancel_group (s : QueueState) (gid : String) (now : String) : QueueState :=
  { s with jobs := s.jobs.map (fun j =>
      if j.group_id = some gid ∧ j.state = "queued" then
        { j with state := "canceled", finished_at := some now }
      else j) }

/-- One retry job (`queue.py` lines 403-412): a fresh id, same run, group,
priority and kind, state `queued`, `attempt` incremented. -/
def retryJob (j : Job) (jid : String) (now : String) : Job :=
  { job_id := jid
    kind := j.kind
    run_id := j.run_id
    group_id := j.group_id
    priority := j.priority
    requires_gpu := false
    state := "queued"
    attempt := j.attempt + 1
    created_at := now }

/-- Predicate for the jobs `retry_failed` copies (`queue.py` line 401). -/
def isFailedIn (gid : String) (j : Job) : Bool :=
  j.group_id == some gid && j.state == "failed"

/-- Build the retry jobs for the failed jobs of the group, threading the
job counter. -/
def retryJobs (jobs : List Job) (gid : String) (counter : Nat) (now : String) :
    List Job × Nat :=
  match jobs with
  | [] => ([], counter)
  | j :: rest =>
      if isFailedIn gid j then
        (retryJob j (genJobId now (counter + 1)) now ::
           (retryJobs rest gid (counter + 1) now).1,
         (retryJobs rest gid (counter + 1) now).2)
      else retryJobs rest gid counter now

/-- `QueueManager.retry_failed` (`queue.py` lines 394-418): for each failed
job of the group, append a new queued job with `attempt + 1`.  The code
performs no duplicate-run check. -/
def retry_failed (m : Mgr) (gid : String) (now : String) : List Job × Mgr :=
  ((retryJobs m.queue.jobs gid m.counter now).1,
   { queue := { m.queue with
       jobs := m.queue.jobs ++ (retryJobs m.queue.jobs gid m.counter now).1 },
     counter := (retryJobs m.queue.jobs gid m.counter now).2 })

/-- The queue operations of `QueueManager`, each carrying the wall-clock
string its Python counterpart would read from `datetime.now()`. -/
inductive Op where
  | enq (run_id : String) (group_id : Option String) (priority : Int) (now : String)
  | deq (paused : List String) (now : String)
  | comp (jid : String) (success : Bool) (error : Option String) (now : String)
  | cancel (jid : String) (now : String)
  | cancelGrp (gid : String) (now : String)
  | retry (gid : String) (now : String)
deriving DecidableEq, Repr

/-- Apply one operation to the manager state.  A failed `enqueue` leaves the
state unchanged (the exception is raised before any write). -/
def step (m : Mgr) : Op → Mgr
  | .enq r g p now =>
      match enqueue m r g p now with
      | .error _ => m
      | .ok (_, m') => m'
  | .deq paused now => { m with queue := (dequeue_next m.queue paused now).2.1 }
  | .comp jid success e now => { m with queue := complete_job m.queue jid success e now }
  | .cancel jid now => { m with queue := (cancel_job m.queue jid now).1 }
  | .cancelGrp gid now => { m with queue := cancel_group m.queue gid now }
  | .retry gid now => (retry_failed m gid now).2

/-- Run a sequence of operations from a manager state. -/
def runOps (m : Mgr) : List Op → Mgr
  | [] => m
  | op :: rest => runOps (step m op) rest

/-- The empty-workspace manager: no queue file yet, counter 0. -/
def mgr0 : Mgr := {}

/-! ### Concrete scenario states (spec §8) -/

/-- S1 setup: two groups, two runs each, enqueued in order. -/
def s1Mgr : Mgr := runOps mgr0 [
  .enq "g1-r1" (some "g1") 0 "t1",
  .enq "g1-r2" (some "g1") 0 "t2",
  .enq "g2-r1" (some "g2") 0 "t3",
  .enq "g2-r2" (some "g2") 0 "t4"]

def s1m1 : Mgr := step s1Mgr (.deq [] "u1")

def s1m2 : Mgr := step s1m1 (.deq [] "u2")

def s1m3 : Mgr := step s1m2 (.deq [] "u3")

/-- S2 setup: one group, three priorities, same created-at ordering. -/
def s2Mgr : Mgr := runOps mgr0 [
  .enq "low" (some "g1") 0 "t1",
  .enq "high" (some "g1") 10 "t2",
  .enq "med" (some "g1") 5 "t3"]

def s2m1 : Mgr := step s2Mgr (.deq [] "u1")

def s2m2 : Mgr := step s2m1 (.deq [] "u2")

/-- A queue with one running job and one queued job in a paused group:
nothing is eligible when `gp` is paused. -/
def c10State : QueueState :=
  { jobs := [
      { job_id := "job_t1_0001", kind := "run", run_id := "r1", group_id := none,
        priority := 0, requires_gpu := false, state := "running", attempt := 1,
        created_at := "t1", started_at := some "t2" },
      { job_id := "job_t3_0002", kind := "run", run_id := "r2", group_id := some "gp",
        priority := 0, requires_gpu := false, state := "queued", attempt := 1,
        created_at := "t3" }],
    last_served_group := some "gp" }

/-- A queue with a single CPU-only queued job. -/
def c1State : QueueState :=
  { jobs := [
      { job_id := "job_t1_0001", kind := "run", run_id := "r1", group_id := some "g1",
        priority := 0, requires_gpu := false, state := "queued", attempt := 1,
        created_at := "t1" }] }

/-- A manager with one queued run `r`. -/
def c4Mgr : Mgr := runOps mgr0 [.enq "r" none 0 "t1"]

/-! ### Group documents and the aggregator (`daemon.py` lines 210-289) -/

/-- A `primary_metric` object from a result file.  The aggregator compares
only its numeric `value`; metrics whose value is a non-number would raise in
Python's `>` and are outside the modelled domain.  A missing `value` key is
`none`. -/
structure PrimaryMetric where
  name : Option String := none
  value : Option ℚ := none
deriving DecidableEq, Repr

/-- One entry of `group.json`'s `runs[]` with the fields the aggregator
touches (`request_overrides` rides along unread and is omitted). -/
structure RunEntry where
  run_id : String
  status : String
  result_ref : Option String := none
  primary_metric : Option PrimaryMetric := none
deriving DecidableEq, Repr

/-- The `execution` object of `group.json`. -/
structure ExecutionInfo where
  max_parallel : Int := 1
  started_at : String := ""
  finished_at : Option String := none
  cancelled : Bool := false
deriving DecidableEq, Repr

/-- The `summary` object of `group.json`. -/
structure GroupSummary where
  total : Int := 0
  succeeded : Nat := 0
  failed : Nat := 0
  canceled : Nat := 0
  best_run_id : Option String := none
  best_primary_metric : Option PrimaryMetric := none
deriving DecidableEq, Repr

/-- A `group.json` document (schema-conformant: `execution` present, as the
sweep bootstrap writes it). -/
structure GroupDoc where
  group_id : String := ""
  name : String := ""
  status : String := "running"
  paused : Bool := false
  execution : ExecutionInfo := {}
  runs : List RunEntry := []
  summary : GroupSummary := {}
deriving DecidableEq, Repr

/-- Update the first run entry matching `run_id` (`daemon.py` lines
224-241): set its status to succeeded/failed; on success, when the run's
`result.json` existed and parsed (`res = some pm?`), record `result_ref`
and, when the parsed `primary_metric` was a truthy (non-empty) object
(`pm? = some pm`), store it.  `res = none` models a missing or unparsable
result file. -/
def updateRunStatus (runs : List RunEntry) (run_id : String) (success : Bool)
    (res : Option (Option PrimaryMetric)) : List RunEntry :=
  match runs with
  | [] => []
  | r :: rest =>
      if r.run_id = run_id then
        (if success then
          match res with
          | some pm? =>
              { r with
                status := "succeeded"
                primary_metric :=
                  (match pm? with
                   | some pm => some pm
                   | none => r.primary_metric)
                result_ref := some (".ml/runs/" ++ run_id ++ "/result.json") }
          | none => { r with status := "succeeded" }
         else { r with status := "failed" }) :: rest
      else r :: updateRunStatus rest run_id success res

/-- One step of the best-run recomputation loop (`daemon.py` lines
256-266): a run participates iff its `primary_metric` is truthy and has a
non-`None` value; it displaces the incumbent only on a strictly greater
value. -/
def bestStep (acc : Option ℚ × Option String × Option PrimaryMetric)
    (run : RunEntry) : Option ℚ × Option String × Option PrimaryMetric :=
  match run.primary_metric with
  | some pm =>
      match pm.value with
      | some v =>
          match acc.1 with
          | none => (some v, some run.run_id, some pm)
          | some bv => if bv < v then (some v, some run.run_id, some pm) else acc
      | none => acc
  | none => acc

/-- The whole best-run recomputation: `(best_value, best_run_id,
best_metric)` after iterating `runs[]` in order. -/
def bestFold (runs : List RunEntry) : Option ℚ × Option String × Option PrimaryMetric :=
  runs.foldl bestStep (none, none, none)

/-- Statuses counted as still pending by `daemon.py` line 251. -/
def isPendingStatus (s : String) : Bool :=
  s == "pending" || s == "queued" || s == "running"

/-- `ExecutionDaemon._update_group_on_completion` for a present,
schema-conformant group document (a missing group file is a no-op and is
not modelled): update the matching run, recompute the counts, flip the
group to its terminal status when no run is pending, and recompute the
best run. -/
def updateGroupOnCompletion (g : GroupDoc) (run_id : String) (success : Bool)
    (res : Option (Option PrimaryMetric)) (now : String) : GroupDoc :=
  let runs := updateRunStatus g.runs run_id success res
  let succ := runs.countP (fun r => r.status == "succeeded")
  let fld := runs.countP (fun r => r.status == "failed")
  let canc := runs.countP (fun r => r.status == "canceled")
  let pending := runs.countP (fun r => isPendingStatus r.status)
  let best := bestFold runs
  { g with
    status := if pending = 0 then (if 0 < fld then "failed" else "completed") else g.status
    execution :=
      { g.execution with
        finished_at := if pending = 0 then some now else g.execution.finished_at }
    runs := runs
    summary :=
      { g.summary with
        succeeded := succ
        failed := fld
        canceled := canc
        best_run_id := best.2.1
        best_primary_metric := best.2.2 } }

/-- Numeric metric value of a run entry, when it has one. -/
def runVal (r : RunEntry) : Option ℚ :=
  r.primary_metric.bind (fun pm => pm.value)

/-- Written from the spec's words for the refinement claim C8: a run is a
greatest run when it has a numeric value at least every other numeric value
in the list. -/
def isGreatestIn (runs : List RunEntry) (r : RunEntry) : Bool :=
  match runVal r with
  | none => false
  | some v =>
      runs.all (fun r2 =>
        match runVal r2 with
        | none => true
        | some w => decide (w ≤ v))

/-- Written from the spec's words: the best run is the first run in
iteration order among those attaining the greatest numeric value. -/
def specBestRun (runs : List RunEntry) : Option RunEntry :=
  runs.find? (isGreatestIn runs)

/-- S5 scenario: a group of two queued runs. -/
def s5Group : GroupDoc :=
  { group_id := "G",
    runs := [{ run_id := "r1", status := "queued" },
             { run_id := "r2", status := "queued" }],
    summary := { total := 2 } }

def s5g1 : GroupDoc := updateGroupOnCompletion s5Group "r1" true none "n1"

def s5g2 : GroupDoc := updateGroupOnCompletion s5g1 "r2" false none "n2"

/-- S6 scenario: three queued runs completing with metric values 0.80,
0.92, 0.85. -/
def s6Group : GroupDoc :=
  { group_id := "G6",
    runs := [{ run_id := "r1", status := "queued" },
             { run_id := "r2", status := "queued" },
             { run_id := "r3", status := "queued" }],
    summary := { total := 3 } }

def s6pm (v : ℚ) : PrimaryMetric := { name := some "accuracy", value := some v }

/-- 0.80, 0.92 and 0.85 as explicitly reduced rationals (4/5, 23/25,
17/20), so that the scenario evaluates inside the kernel. -/
def q080 : ℚ := Rat.mk' 4 5 (by decide) (by decide)

def q092 : ℚ := Rat.mk' 23 25 (by decide) (by decide)

def q085 : ℚ := Rat.mk' 17 20 (by decide) (by decide)

def s6g1 : GroupDoc :=
  updateGroupOnCompletion s6Group "r1" true (some (some (s6pm q080))) "n1"

def s6g2 : GroupDoc :=
  updateGroupOnCompletion s6g1 "r2" true (some (some (s6pm q092))) "n2"

def s6g3 : GroupDoc :=
  updateGroupOnCompletion s6g2 "r3" true (some (some (s6pm q085))) "n3"

/-! ### `apply_overrides` (`sweep.py` lines 190-210) over an explicit heap

Python dicts are mutable objects; `apply_overrides` deep-copies the base
request and then mutates the copy in place.  To make mutation (and its
absence on `base`) observable, dict objects live on an explicit heap of
numbered addresses.  Values the function can never traverse or mutate —
scalars, and arrays together with everything below them (navigating into
a non-dict raises `TypeError` in Python before any mutation) — are kept
as immutable trees. -/

/-- A JSON value as parsed from `plan.json` / passed to
`apply_overrides`. -/
inductive JsonV where
  | null
  | bool (b : Bool)
  | num (q : ℚ)
  | str (s : String)
  | obj (fields : List (String × JsonV))
  | arr (elems : List JsonV)

/-- A value stored in a heap dict: a reference to a nested dict, or an
immutable non-dict JSON value. -/
inductive HVal where
  | ref (a : Nat)
  | val (v : JsonV)

/-- The heap: an allocation cursor and an association list of dict
objects (entry lists), newest binding first. -/
structure Heap where
  next : Nat
  mem : List (Nat × List (String × HVal))

def Heap.get (h : Heap) (a : Nat) : Option (List (String × HVal)) :=
  (h.mem.find? (fun e => e.1 == a)).map (fun e => e.2)

def Heap.set (h : Heap) (a : Nat) (o : List (String × HVal)) : Heap :=
  ⟨h.next, (a, o) :: h.mem⟩

def hvalBelow (n : Nat) : HVal → Bool
  | .ref b => decide (b < n)
  | .val _ => true

def hvalGE (n : Nat) : HVal → Bool
  | .ref b => decide (n ≤ b)
  | .val _ => true

/-- Well-formedness of the modelled heap: every stored address and every
stored reference lies below the allocation cursor. -/
def Heap.wfb (h : Heap) : Bool :=
  h.mem.all (fun e =>
    decide (e.1 < h.next) && e.2.all (fun kv => hvalBelow h.next kv.2))

/-- What `Heap.wfb` gives about visible objects: each sits below the
cursor with all references below the cursor. -/
def Heap.Closed (h : Heap) : Prop :=
  ∀ a o, h.get a = some o →
    a < h.next ∧ (o.all (fun kv => hvalBelow h.next kv.2)) = true

/-- The copy region: at or above `n0`, all stored references stay at or
above `n0` (so the region is closed under reachability and disjoint from
everything below `n0`). -/
def Heap.HighRegion (h : Heap) (n0 : Nat) : Prop :=
  ∀ a o, n0 ≤ a → h.get a = some o →
    (o.all (fun kv => hvalGE n0 kv.2)) = true

/-- Read the fields of a dict back into trees with a given reader for the
values. -/
def readEntries (f : HVal → Option JsonV) :
    List (String × HVal) → Option (List (String × JsonV))
  | [] => some []
  | kv :: rest =>
      match f kv.2 with
      | none => none
      | some t =>
          match readEntries f rest with
          | none => none
          | some ts => some ((kv.1, t) :: ts)

/-- Read a stored value back into a pure JSON tree; `fuel` bounds the
dict-nesting depth followed (a heap reachable from an allocated tree is
acyclic, so enough fuel always exists). -/
def readVal : Nat → Heap → HVal → Option JsonV
  | _, _, .val v => some v
  | 0, _, .ref _ => none
  | fuel+1, h, .ref a =>
      match Heap.get h a with
      | none => none
      | some entries =>
          (readEntries (fun w => readVal fuel h w) entries).map JsonV.obj

/-- Allocate the fields of an object with a given allocator for the
values, threading the heap left to right. -/
def allocEntries (f : JsonV → Heap → Option (HVal × Heap)) :
    List (String × JsonV) → Heap → Option (List (String × HVal) × Heap)
  | [], h => some ([], h)
  | kv :: rest, h =>
      match f kv.2 h with
      | none => none
      | some (w, h2) =>
          match allocEntries f rest h2 with
          | none => none
          | some (ws, h3) => some ((kv.1, w) :: ws, h3)

/-- Allocate a JSON tree on the heap: objects become fresh dicts (children
first), everything else is stored inline as an immutable value. -/
def allocVal : Nat → JsonV → Heap → Option (HVal × Heap)
  | 0, _, _ => none
  | fuel+1, .obj fs, h =>
      match allocEntries (fun v hh => allocVal fuel v hh) fs h with
      | none => none
      | some (ws, h2) =>
          some (.ref h2.next, ⟨h2.next + 1, (h2.next, ws) :: h2.mem⟩)
  | _+1, v, h => some (.val v, h)

/-- `copy.deepcopy(base)` for the dict at `a`: read the tree out and
allocate a fresh, fully disjoint copy. -/
def deepcopyAddr (fuel : Nat) (h : Heap) (a : Nat) : Option (Nat × Heap) :=
  match readVal fuel h (.ref a) with
  | none => none
  | some t =>
      match allocVal fuel t h with
      | some (.ref r, h2) => some (r, h2)
      | _ => none

/-- Python `path.split(".")` over the character list (the library
`splitOn` is not kernel-reducible). -/
def splitDotAux : List Char → List Char → List String
  | [], acc => [⟨acc.reverse⟩]
  | c :: rest, acc =>
      if c = '.' then ⟨acc.reverse⟩ :: splitDotAux rest []
      else splitDotAux rest (c :: acc)

def splitDot (s : String) : List String := splitDotAux s.data []

/-- The parent-navigation loop of `apply_overrides` (`sweep.py` lines
199-202): follow `parts[:-1]` from the root, inserting a fresh empty dict
when a part is missing; a part held by a non-dict value raises `TypeError`
in Python and yields `none` here. -/
def walkParts : List String → Heap → Nat → Option (Nat × Heap)
  | [], h, a => some (a, h)
  | part :: rest, h, a =>
      match Heap.get h a with
      | none => none
      | some entries =>
          match entries.find? (fun kv => kv.1 == part) with
          | some kv =>
              match kv.2 with
              | .ref b => walkParts rest h b
              | .val _ => none
          | none =>
              walkParts rest
                (Heap.set ⟨h.next + 1, (h.next, []) :: h.mem⟩ a
                  (entries ++ [(part, .ref h.next)]))
                h.next

/-- Python dict assignment `d[k] = v`: replace in place when the key is
present, append otherwise. -/
def setEntry (entries : List (String × HVal)) (k : String) (v : HVal) :
    List (String × HVal) :=
  if entries.any (fun kv => kv.1 == k) then
    entries.map (fun kv => if kv.1 == k then (kv.1, v) else kv)
  else entries ++ [(k, v)]

/-- One `path, value` step of the override loop (`sweep.py` lines
194-208): split the dotted path, walk to the parent of the target field,
then pop the final key when the value is Python `None` (`JsonV.null`), or
assign it otherwise (allocating the value when it is itself an object).
Executions in which Python raises return `none`. -/
def setPath (fuel : Nat) (h : Heap) (root : Nat) (path : String)
    (value : JsonV) : Option Heap :=
  match walkParts (splitDot path).dropLast h root with
  | none => none
  | some pr =>
      match Heap.get pr.2 pr.1 with
      | none => none
      | some entries =>
          match value with
          | .null => some (Heap.set pr.2 pr.1
              (entries.filter (fun kv => !(kv.1 == (splitDot path).getLastD ""))))
          | v =>
              match allocVal fuel v pr.2 with
              | none => none
              | some q => some (Heap.set q.2 pr.1
                  (setEntry entries ((splitDot path).getLastD "") q.1))

/-- `SweepOrchestrator.apply_overrides` over the explicit heap: deep-copy
the base document, then apply each dotted override in order to the copy.
`overrides` is the insertion-ordered item list of the Python dict. -/
def apply_overrides (fuel : Nat) (h : Heap) (base : Nat)
    (overrides : List (String × JsonV)) : Option (Nat × Heap) :=
  match deepcopyAddr fuel h base with
  | none => none
  | some pr =>
      match overrides.foldlM (fun hh kv => setPath fuel hh pr.1 kv.1 kv.2) pr.2 with
      | none => none
      | some h3 => some (pr.1, h3)

/-- Contract of one allocation: the cursor advances, addresses below the
old cursor are untouched, the produced value and all new objects are
fresh with fresh references, and on a closed heap the allocated value
reads back as the input tree. -/
def AllocOk (fuel : Nat) (v : JsonV) (h : Heap) (w : HVal) (h2 : Heap) : Prop :=
  h.next ≤ h2.next ∧
  (∀ a, a < h.next → h2.get a = h.get a) ∧
  (hvalBelow h2.next w = true ∧ hvalGE h.next w = true) ∧
  (∀ a o, h2.get a = some o →
    h.get a = some o ∨
    (h.next ≤ a ∧ a < h2.next ∧
      (o.all (fun kv => hvalBelow h2.next kv.2 && hvalGE h.next kv.2)) = true)) ∧
  (Heap.Closed h → readVal fuel h2 w = some v)

/-- The same contract for a whole field list. -/
def EntriesOk (fuel : Nat) (l : List (String × JsonV)) (h : Heap)
    (ws : List (String × HVal)) (h2 : Heap) : Prop :=
  h.next ≤ h2.next ∧
  (∀ a, a < h.next → h2.get a = h.get a) ∧
  (ws.all (fun kv => hvalBelow h2.next kv.2 && hvalGE h.next kv.2) = true) ∧
  (∀ a o, h2.get a = some o →
    h.get a = some o ∨
    (h.next ≤ a ∧ a < h2.next ∧
      (o.all (fun kv => hvalBelow h2.next kv.2 && hvalGE h.next kv.2)) = true)) ∧
  (Heap.Closed h → readEntries (fun u => readVal fuel h2 u) ws = some l)

/-- C9 witness data: the base document with a scalar field and a nested
dict, stored at address 0 with the nested dict at address 1. -/
def c9h0 : Heap :=
  ⟨2, [(0, [("a", .val (.str "x")), ("b", .ref 1)]),
       (1, [("c", .val (.str "y"))])]⟩

def c9base : JsonV := .obj [("a", .str "x"), ("b", .obj [("c", .str "y")])]

def c9ovs : List (String × JsonV) := [("b.c", .null)]

/-! ### Invariants and trace conditions -/

/-- Observable state of the first job with the given id in a job list. -/
def findState (l : List Job) (jid : String) : Option String :=
  (l.find? (fun j => j.job_id == jid)).map (fun j => j.state)

/-- Observable state of the first job with the given id (the one every
first-match loop of `queue.py` touches). -/
def stateOf (s : QueueState) (jid : String) : Option String :=
  findState s.jobs jid

/-- The job lifecycle transitions the spec allows: stay in place,
`queued → running`, `running → succeeded/failed`, `queued → canceled`. -/
def allowedStep (a b : String) : Prop :=
  a = b ∨ (a = "queued" ∧ b = "running") ∨
  (a = "running" ∧ (b = "succeeded" ∨ b = "failed")) ∨
  (a = "queued" ∧ b = "canceled")

instance (a b : String) : Decidable (allowedStep a b) := by
  unfold allowedStep
  infer_instance

/-- Well-formedness of a manager reachable from the empty state: every
stored job id decodes to a counter value at most the current counter, and
job ids are pairwise distinct. -/
def JobsWf (m : Mgr) : Prop :=
  (∀ i ∈ m.queue.jobs.map (fun j => j.job_id), decCounter i ≤ m.counter) ∧
  (m.queue.jobs.map (fun j => j.job_id)).Nodup

/-- The invariant of claim C2: at most one job per run id is simultaneously
queued or running. -/
def UniqueActive (s : QueueState) : Prop := ∀ r, activeCount s r ≤ 1

/-- Precondition under which `retry_failed` preserves `UniqueActive`: every
failed job of the group belongs to a run with no active job and no second
failed job of the group. -/
def SafeRetry (s : QueueState) (gid : String) : Prop :=
  ∀ j ∈ s.jobs, isFailedIn gid j = true →
    activeCount s j.run_id +
      s.jobs.countP (fun k => isFailedIn gid k && (k.run_id == j.run_id)) ≤ 1

instance (s : QueueState) (gid : String) : Decidable (SafeRetry s gid) := by
  unfold SafeRetry
  infer_instance

/-- Per-operation side condition of the amended C2: a `retry` is only issued
in a `SafeRetry` state. -/
def opRetrySafe (m : Mgr) : Op → Prop
  | .retry gid _ => SafeRetry m.queue gid
  | _ => True

instance (m : Mgr) (op : Op) : Decidable (opRetrySafe m op) := by
  cases op <;> simp only [opRetrySafe] <;> infer_instance

/-- All `retry` operations along the trace are issued in `SafeRetry`
states. -/
def RetrySafeAlong : Mgr → List Op → Prop
  | _, [] => True
  | m, op :: rest => opRetrySafe m op ∧ RetrySafeAlong (step m op) rest

instance instDecRetrySafeAlong :
    (m : Mgr) → (ops : List Op) → Decidable (RetrySafeAlong m ops)
  | _, [] => isTrue trivial
  | m, op :: rest =>
      haveI := instDecRetrySafeAlong (step m op) rest
      inferInstanceAs (Decidable (_ ∧ _))

/-- Per-operation side condition of the amended C5: `complete_job` is only
invoked for ids that are unknown or belong to a running job (the daemon
calls it only for jobs it has dequeued). -/
def opCompletesRunning (m : Mgr) : Op → Prop
  | .comp jid _ _ _ => stateOf m.queue jid = none ∨ stateOf m.queue jid = some "running"
  | _ => True

instance (m : Mgr) (op : Op) : Decidable (opCompletesRunning m op) := by
  cases op <;> simp only [opCompletesRunning] <;> infer_instance

/-- All `complete_job` calls along the trace target running (or unknown)
jobs. -/
def CompletesRunningAlong : Mgr → List Op → Prop
  | _, [] => True
  | m, op :: rest => opCompletesRunning m op ∧ CompletesRunningAlong (step m op) rest

instance instDecCompletesRunningAlong :
    (m : Mgr) → (ops : List Op) → Decidable (CompletesRunningAlong m ops)
  | _, [] => isTrue trivial
  | m, op :: rest =>
      haveI := instDecCompletesRunningAlong (step m op) rest
      inferInstanceAs (Decidable (_ ∧ _))

/-- Along the trace, every job's observable state follows only the allowed
transitions, and jobs that appear start as `queued`. -/
def StepsAllowed : Mgr → List Op → Prop
  | _, [] => True
  | m, op :: rest =>
      (∀ jid a b, stateOf m.queue jid = some a →
        stateOf (step m op).queue jid = some b → allowedStep a b) ∧
      (∀ jid b, stateOf m.queue jid = none →
        stateOf (step m op).queue jid = some b → b = "queued") ∧
      StepsAllowed (step m op) rest

/-- The C2 counterexample trace: enqueue `r`, run it, fail it, then call
`retry_failed` twice. -/
def c2CexOps : List Op := [
  .enq "r" (some "g") 0 "t1",
  .deq [] "t2",
  .comp "job_t1_0001" false (some "boom") "t3",
  .retry "g" "t4",
  .retry "g" "t5"]

/-- The S4-style witness trace for the amended C2: one failure, one retry. -/
def c2WitnessOps : List Op := [
  .enq "r" (some "g1") 0 "t1",
  .deq [] "t2",
  .comp "job_t1_0001" false (some "err") "t3",
  .retry "g1" "t4"]

/-- The C5 counterexample: a queued job completed without ever running. -/
def c5CexM1 : Mgr := runOps mgr0 [.enq "r" none 0 "t1"]

def c5CexM2 : Mgr := step c5CexM1 (.comp "job_t1_0001" true none "t2")

/-- Witness trace for the amended C5: enqueue, dequeue, complete the running
job. -/
def c5WitnessOps : List Op := [
  .enq "r" (some "g1") 0 "t1",
  .deq [] "t2",
  .comp "job_t1_0001" true none "t3"]

/-! ## Theorems -/

theorem charListLe_total : ∀ l₁ l₂ : List Char, charListLe l₁ l₂ = true ∨ charListLe l₂ l₁ = true
  | [], _ => .inl rfl
  | _ :: _, [] => .inr rfl
  | a :: as, b :: bs => by
      rcases lt_trichotomy a b with h | h | h
      · left; simp [charListLe, h]
      · subst h
        rcases charListLe_total as bs with h2 | h2 <;>
          simp [charListLe, lt_irrefl, h2]
      · right; simp [charListLe, h]

theorem charListLe_trans : ∀ l₁ l₂ l₃ : List Char,
    charListLe l₁ l₂ = true → charListLe l₂ l₃ = true → charListLe l₁ l₃ = true
  | [], _, _ => fun _ _ => rfl
  | a :: as, [], _ => by simp [charListLe]
  | _ :: _, _ :: _, [] => by simp [charListLe]
  | a :: as, b :: bs, c :: cs => by
      intro h12 h23
      simp only [charListLe] at h12 h23 ⊢
      rcases lt_trichotomy a b with hab | hab | hab <;>
        rcases lt_trichotomy b c with hbc | hbc | hbc
      all_goals first
        | (subst hab; subst hbc
           simp_all [lt_irrefl]
           exact charListLe_trans as bs cs h12 h23)
        | (subst hab
           simp_all [lt_irrefl])
        | (subst hbc
           simp_all [lt_irrefl])
        | (have hac : a < c := lt_trans hab hbc
           simp [hac, not_lt_of_gt hac])
        | simp_all [lt_irrefl, not_lt_of_gt, lt_asymm]

theorem strLe_total (s t : String) : strLe s t ∨ strLe t s :=
  charListLe_total s.data t.data

theorem strLe_trans {s t u : String} : strLe s t → strLe t u → strLe s u :=
  charListLe_trans s.data t.data u.data

instance : IsTotal Job leKey where
  total j k := by
    rcases lt_trichotomy j.priority k.priority with h | h | h
    · exact .inr (.inl h)
    · rcases strLe_total j.created_at k.created_at with h2 | h2
      · exact .inl (.inr ⟨h, h2⟩)
      · exact .inr (.inr ⟨h.symm, h2⟩)
    · exact .inl (.inl h)

instance : IsTrans Job leKey where
  trans a b c hab hbc := by
    rcases hab with h | ⟨he, hs⟩ <;> rcases hbc with h2 | ⟨he2, hs2⟩
    · exact .inl (lt_trans h2 h)
    · exact .inl (he2 ▸ h)
    · exact .inl (he ▸ h2)
    · exact .inr ⟨he.trans he2, strLe_trans hs hs2⟩

instance : IsTotal (String × Job) leCreated where
  total x y := strLe_total x.2.created_at y.2.created_at

instance : IsTrans (String × Job) leCreated where
  trans _ _ _ hab hbc := strLe_trans hab hbc



theorem digitVal_digitChar {d : Nat} (h : d < 10) : digitVal (digitChar d) = d := by
  interval_cases d <;> rfl

theorem digitChar_ne_underscore (d : Nat) : digitChar d ≠ '_' := by
  unfold digitChar
  split <;> decide

theorem natDigitsAux_ne_underscore :
    ∀ (fuel n : Nat), ∀ c ∈ natDigitsAux fuel n, c ≠ '_' := by
  intro fuel
  induction fuel with
  | zero => intro n c hc; simp [natDigitsAux] at hc
  | succ fuel ih =>
      intro n c hc
      rw [natDigitsAux] at hc
      split at hc
      · simp only [List.mem_singleton] at hc
        exact hc ▸ digitChar_ne_underscore n
      · rcases List.mem_append.1 hc with h1 | h1
        · exact ih (n / 10) c h1
        · simp only [List.mem_singleton] at h1
          exact h1 ▸ digitChar_ne_underscore (n % 10)

theorem natDigits_ne_underscore (n : Nat) : ∀ c ∈ natDigits n, c ≠ '_' :=
  natDigitsAux_ne_underscore (n + 1) n

theorem foldl_digits_append (l : List Char) (c : Char) (a : Nat) :
    List.foldl (fun a c => a * 10 + digitVal c) a (l ++ [c]) =
      List.foldl (fun a c => a * 10 + digitVal c) a l * 10 + digitVal c := by
  simp [List.foldl_append]

theorem foldl_digits_natDigitsAux :
    ∀ (fuel n : Nat), n < fuel → ∀ a : Nat,
    List.foldl (fun a c => a * 10 + digitVal c) a (natDigitsAux fuel n) =
      a * 10 ^ (natDigitsAux fuel n).length + n := by
  intro fuel
  induction fuel with
  | zero => intro n hn; omega
  | succ fuel ih =>
      intro n hn a
      rw [natDigitsAux]
      split
      · rename_i h
        simp [digitVal_digitChar h]
      · rename_i h
        have hlt : n / 10 < fuel := by
          have h1 : n / 10 < n := Nat.div_lt_self (by omega) (by omega)
          omega
        rw [foldl_digits_append, ih (n / 10) hlt a,
          digitVal_digitChar (Nat.mod_lt _ (by omega))]
        rw [List.length_append, List.length_singleton, pow_succ]
        have := Nat.div_add_mod n 10
        ring_nf
        omega

theorem foldl_digits_natDigits (n : Nat) : ∀ a : Nat,
    List.foldl (fun a c => a * 10 + digitVal c) a (natDigits n) =
      a * 10 ^ (natDigits n).length + n :=
  foldl_digits_natDigitsAux (n + 1) n (by omega)

theorem foldl_digits_zeros (k : Nat) :
    List.foldl (fun a c => a * 10 + digitVal c) 0 (List.replicate k '0') = 0 := by
  induction k with
  | zero => rfl
  | succ k ih =>
      simpa [List.replicate_succ, digitVal] using ih

theorem digitsVal_pad4 (n : Nat) : digitsVal (pad4 n).data = n := by
  show List.foldl _ 0 (List.replicate _ '0' ++ natDigits n) = n
  rw [List.foldl_append, foldl_digits_zeros, foldl_digits_natDigits]
  simp

theorem takeWhile_append_all {p : Char → Bool} (xs : List Char) (y : Char)
    (ys : List Char) (hxs : ∀ c ∈ xs, p c = true) (hy : p y = false) :
    (xs ++ y :: ys).takeWhile p = xs := by
  induction xs with
  | nil => simp [List.takeWhile, hy]
  | cons x xs ih =>
      have hx : p x = true := hxs x (List.mem_cons_self _ _)
      simp only [List.cons_append, List.takeWhile, hx]
      show x :: List.takeWhile p (xs ++ y :: ys) = x :: xs
      rw [ih (fun c hc => hxs c (List.mem_cons_of_mem _ hc))]

/-- The counter embedded in a generated job id is recovered exactly,
whatever the timestamp string is. -/
theorem decCounter_genJobId (ts : String) (c : Nat) :
    decCounter (genJobId ts c) = c := by
  have hdata : (genJobId ts c).data =
      ("job_" ++ ts).data ++ '_' :: (pad4 c).data := by
    show (("job_" ++ ts ++ "_") ++ pad4 c).data = _
    rw [String.data_append, String.data_append]
    simp
  unfold decCounter
  rw [hdata, List.reverse_append]
  have hrev : ('_' :: (pad4 c).data).reverse = (pad4 c).data.reverse ++ ['_'] := by
    simp
  rw [hrev, List.append_assoc, List.cons_append, List.nil_append]
  have hall : ∀ ch ∈ (pad4 c).data.reverse, (ch ≠ '_' : Bool) = true := by
    intro ch hch
    rw [List.mem_reverse] at hch
    have : ch ∈ List.replicate (4 - (natDigits c).length) '0' ++ natDigits c := hch
    rcases List.mem_append.1 this with h1 | h1
    · have := List.eq_of_mem_replicate h1
      subst this
      decide
    · simpa using natDigits_ne_underscore c ch h1
  rw [takeWhile_append_all _ '_' _ hall (by decide), List.reverse_reverse]
  exact digitsVal_pad4 c

/-- Ids generated with distinct counters are distinct, whatever the
timestamps. -/
theorem genJobId_ne {ts₁ ts₂ : String} {c₁ c₂ : Nat} (h : c₁ ≠ c₂) :
    genJobId ts₁ c₁ ≠ genJobId ts₂ c₂ := by
  intro he
  apply h
  have := congrArg decCounter he
  rwa [decCounter_genJobId, decCounter_genJobId] at this


section SortFacts

variable {α : Type} (r : α → α → Prop) [DecidableRel r] [IsTotal α r] [IsTrans α r]

theorem head_insertionSort {l : List α} {x : α} {xs : List α}
    (h : List.insertionSort r l = x :: xs) : x ∈ l ∧ ∀ y ∈ l, r x y := by
  have hperm := List.perm_insertionSort r l
  have hx : x ∈ l := hperm.subset (h ▸ List.mem_cons_self x xs)
  refine ⟨hx, fun y hy => ?_⟩
  have hy2 : y ∈ x :: xs := h ▸ hperm.mem_iff.2 hy
  rcases List.mem_cons.1 hy2 with rfl | hy3
  · rcases total_of r y y with h1 | h1 <;> exact h1
  · have hs := List.sorted_insertionSort r l
    rw [h] at hs
    exact (List.sorted_cons.1 hs).1 y hy3

omit [IsTotal α r] [IsTrans α r] in
theorem insertionSort_ne_nil {l : List α} (h : l ≠ []) :
    List.insertionSort r l ≠ [] := by
  intro hc
  have hlen2 : (List.insertionSort r l).length = l.length :=
    (List.perm_insertionSort r l).length_eq
  rw [hc] at hlen2
  exact h (List.eq_nil_of_length_eq_zero hlen2.symm)

end SortFacts

/-! ### Facts about the group partition -/

theorem addToGroups_of_not_mem {gs : List (String × List Job)} {g : String}
    (j : Job) (h : g ∉ gs.map Prod.fst) :
    addToGroups gs g j = gs ++ [(g, [j])] := by
  induction gs with
  | nil => rfl
  | cons e rest ih =>
      obtain ⟨g', js⟩ := e
      simp only [List.map_cons, List.mem_cons] at h
      push_neg at h
      simp only [addToGroups, if_neg (Ne.symm h.1)]
      rw [ih h.2]
      rfl

theorem addToGroups_of_mem {gs : List (String × List Job)} {g : String}
    (j : Job) (hnd : (gs.map Prod.fst).Nodup) (h : g ∈ gs.map Prod.fst) :
    addToGroups gs g j =
      gs.map (fun e => if e.1 = g then (e.1, e.2 ++ [j]) else e) := by
  induction gs with
  | nil => simp at h
  | cons e rest ih =>
      obtain ⟨g', js⟩ := e
      simp only [List.map_cons, List.nodup_cons] at hnd
      simp only [List.map_cons, List.mem_cons] at h
      by_cases hg : g' = g
      · subst hg
        have hrest : rest.map (fun e => if e.1 = g' then (e.1, e.2 ++ [j]) else e) = rest := by
          have h1 : ∀ e ∈ rest, (if e.1 = g' then (e.1, e.2 ++ [j]) else e) = id e := by
            intro e he
            have hne : e.1 ≠ g' := by
              intro hc
              exact hnd.1 (hc ▸ List.mem_map_of_mem Prod.fst he)
            simp [hne]
          rw [List.map_congr_left h1, List.map_id]
        simp [addToGroups, hrest]
      · have h2 : g ∈ rest.map Prod.fst := by
          rcases h with h | h
          · exact absurd h.symm hg
          · exact h
        simp only [addToGroups, if_neg hg, List.map_cons, if_neg hg]
        rw [ih hnd.2 h2]

/-- Combined invariant of the `dict`-of-lists fold: keys are distinct, each
entry holds exactly the processed jobs of its key in order, entries are
nonempty, and every processed job's key is present. -/
def GroupsInv (gs : List (String × List Job)) (p : List Job) : Prop :=
  ((gs.map Prod.fst).Nodup) ∧
  (∀ e ∈ gs, e.2 = p.filter (fun j => groupKey j == e.1)) ∧
  (∀ e ∈ gs, e.2 ≠ []) ∧
  (∀ j ∈ p, groupKey j ∈ gs.map Prod.fst)

theorem groupsInv_step {gs : List (String × List Job)} {p : List Job}
    (hinv : GroupsInv gs p) (j : Job) :
    GroupsInv (addToGroups gs (groupKey j) j) (p ++ [j]) := by
  obtain ⟨hnd, hfilter, hne, hkeys⟩ := hinv
  by_cases hmem : groupKey j ∈ gs.map Prod.fst
  · rw [addToGroups_of_mem j hnd hmem]
    have hfst : (gs.map (fun e => if e.1 = groupKey j then (e.1, e.2 ++ [j]) else e)).map
        Prod.fst = gs.map Prod.fst := by
      rw [List.map_map]
      apply List.map_congr_left
      intro e _
      by_cases he : e.1 = groupKey j <;> simp [he]
    refine ⟨?_, ?_, ?_, ?_⟩
    · rw [hfst]; exact hnd
    · intro e he
      rcases List.mem_map.1 he with ⟨e', he', rfl⟩
      by_cases hk : e'.1 = groupKey j
      · simp only [if_pos hk, List.filter_append]
        rw [← hfilter e' he']
        simp [List.filter, hk]
      · simp only [if_neg hk, List.filter_append]
        rw [← hfilter e' he']
        have hb : (groupKey j == e'.1) = false := by
          simp only [beq_eq_false_iff_ne, ne_eq]
          intro hc
          exact hk hc.symm
        simp [List.filter, hb]
    · intro e he
      rcases List.mem_map.1 he with ⟨e', he', rfl⟩
      by_cases hk : e'.1 = groupKey j <;> simp [hk, hne e' he']
    · intro k hk
      rw [hfst]
      rcases List.mem_append.1 hk with h | h
      · exact hkeys k h
      · simp only [List.mem_singleton] at h
        subst h
        exact hmem
  · rw [addToGroups_of_not_mem j hmem]
    refine ⟨?_, ?_, ?_, ?_⟩
    · rw [List.map_append]
      simp only [List.map_cons, List.map_nil]
      exact List.Nodup.append hnd (List.nodup_singleton _)
        (by simpa [List.disjoint_singleton] using hmem)
    · intro e he
      rcases List.mem_append.1 he with h | h
      · rw [hfilter e h, List.filter_append]
        have : (groupKey j == e.1) = false := by
          simp only [beq_eq_false_iff_ne, ne_eq]
          intro hc
          exact hmem (hc ▸ List.mem_map_of_mem Prod.fst h)
        simp [List.filter, this]
      · simp only [List.mem_singleton] at h
        subst h
        simp only [List.filter_append]
        have hempty : p.filter (fun j2 => groupKey j2 == groupKey j) = [] := by
          rw [List.filter_eq_nil_iff]
          intro a ha
          simp only [beq_iff_eq]
          intro hc
          exact hmem (hc ▸ hkeys a ha)
        simp [hempty, List.filter]
    · intro e he
      rcases List.mem_append.1 he with h | h
      · exact hne e h
      · simp only [List.mem_singleton] at h
        subst h
        simp
    · intro k hk
      rw [List.map_append]
      rcases List.mem_append.1 hk with h | h
      · exact List.mem_append.2 (.inl (hkeys k h))
      · simp only [List.mem_singleton] at h
        subst h
        simp

theorem groupJobs_inv (l : List Job) : GroupsInv (groupJobs l) l := by
  suffices h : ∀ (l2 : List Job) (gs : List (String × List Job)) (p : List Job),
      GroupsInv gs p →
      GroupsInv (l2.foldl (fun gs j => addToGroups gs (groupKey j) j) gs) (p ++ l2) by
    have := h l [] [] ⟨List.nodup_nil, by simp, by simp, by simp⟩
    simpa [groupJobs] using this
  intro l2
  induction l2 with
  | nil => intro gs p h; simpa using h
  | cons j rest ih =>
      intro gs p h
      have h2 := groupsInv_step h j
      have := ih _ _ h2
      simpa [List.append_assoc] using this

/-! ### Facts about the candidate list -/

theorem candidatesOf_mem {q : List Job} {g : String} {x : Job}
    (h : (g, x) ∈ candidatesOf q) :
    x ∈ q ∧ groupKey x = g ∧ ∀ k ∈ q, groupKey k = g → leKey x k := by
  obtain ⟨hnd, hfilter, hne, hkeys⟩ := groupJobs_inv q
  rcases List.mem_filterMap.1 h with ⟨e, he, hfe⟩
  obtain ⟨g', js⟩ := e
  rcases hsort : List.insertionSort leKey js with _ | ⟨y, ys⟩
  · rw [hsort] at hfe; exact absurd hfe (by simp)
  · rw [hsort] at hfe
    simp only [Option.some.injEq, Prod.mk.injEq] at hfe
    obtain ⟨rfl, rfl⟩ := hfe
    have hjs : js = q.filter (fun j => groupKey j == g') := hfilter (g', js) he
    have hhead := head_insertionSort leKey hsort
    have hyjs : y ∈ q.filter (fun j => groupKey j == g') := hjs ▸ hhead.1
    refine ⟨(List.mem_filter.1 hyjs).1, by simpa using (List.mem_filter.1 hyjs).2,
      fun k hk hkg => ?_⟩
    apply hhead.2
    rw [hjs]
    exact List.mem_filter.2 ⟨hk, by simpa using hkg⟩

theorem candidatesOf_exists {q : List Job} {j : Job} (h : j ∈ q) :
    ∃ x, (groupKey j, x) ∈ candidatesOf q := by
  obtain ⟨hnd, hfilter, hne, hkeys⟩ := groupJobs_inv q
  have hkey := hkeys j h
  rcases List.mem_map.1 hkey with ⟨e, he, hfe⟩
  obtain ⟨g', js⟩ := e
  simp only at hfe
  subst hfe
  have hjsne : js ≠ [] := hne _ he
  rcases hsort : List.insertionSort leKey js with _ | ⟨y, ys⟩
  · exact absurd hsort (insertionSort_ne_nil leKey hjsne)
  · refine ⟨y, List.mem_filterMap.2 ⟨(groupKey j, js), he, ?_⟩⟩
    rw [hsort]

theorem candidatesOf_ne_nil {q : List Job} (h : q ≠ []) :
    candidatesOf q ≠ [] := by
  rcases q with _ | ⟨j, rest⟩
  · exact absurd rfl h
  · rcases candidatesOf_exists (List.mem_cons_self j rest) with ⟨x, hx⟩
    intro hc
    rw [hc] at hx
    exact absurd hx (List.not_mem_nil _)

theorem candidatesOf_single {q : List Job} {g : String}
    (hall : ∀ j ∈ q, groupKey j = g) (hne : q ≠ []) :
    ∃ x xs, List.insertionSort leKey q = x :: xs ∧ candidatesOf q = [(g, x)] := by
  obtain ⟨hnd, hfilter, hne2, hkeys⟩ := groupJobs_inv q
  rcases q with _ | ⟨j, rest⟩
  · exact absurd rfl hne
  · have hkeyg : groupKey j = g := hall j (List.mem_cons_self j rest)
    have hkeymem := hkeys j (List.mem_cons_self j rest)
    have hallkeys : ∀ k ∈ (groupJobs (j :: rest)).map Prod.fst, k = g := by
      intro k hk
      rcases List.mem_map.1 hk with ⟨e, he, hfe⟩
      have hene := hne2 e he
      have hef := hfilter e he
      rcases hmem : e.2 with _ | ⟨y, ys⟩
      · exact absurd hmem hene
      · have : y ∈ e.2 := hmem ▸ List.mem_cons_self y ys
        rw [hef] at this
        have hy := List.mem_filter.1 this
        have := hall y hy.1
        have h2 : groupKey y = e.1 := by simpa using hy.2
        rw [← hfe, ← h2, this]
    have hkeysingle : (groupJobs (j :: rest)).map Prod.fst = [g] := by
      have hglen : ∀ a b, a ∈ (groupJobs (j :: rest)).map Prod.fst →
          b ∈ (groupJobs (j :: rest)).map Prod.fst → a = b := by
        intro a b ha hb
        rw [hallkeys a ha, hallkeys b hb]
      rcases hl : (groupJobs (j :: rest)).map Prod.fst with _ | ⟨k, ks⟩
      · rw [hl] at hkeymem; exact absurd hkeymem (List.not_mem_nil _)
      · have hkg : k = g := hallkeys k (hl ▸ List.mem_cons_self k ks)
        have hks : ks = [] := by
          rcases ks with _ | ⟨k2, ks2⟩
          · rfl
          · exfalso
            have hnd2 := hl ▸ hnd
            have hk2g : k2 = g := hallkeys k2 (hl ▸ by simp)
            rw [List.nodup_cons] at hnd2
            exact hnd2.1 (by simp [hkg, hk2g])
        rw [hkg, hks]
    have hentry : groupJobs (j :: rest) = [(g, j :: rest)] := by
      rcases hl : groupJobs (j :: rest) with _ | ⟨e, es⟩
      · rw [hl] at hkeymem; simp at hkeymem
      · have hmap := hl ▸ hkeysingle
        rcases es with _ | ⟨e2, es2⟩
        · simp only [List.map_cons, List.map_nil, List.cons.injEq] at hmap
          have he1 : e.1 = g := hmap.1
          have hef := hfilter e (hl ▸ List.mem_cons_self e [])
          have : e.2 = j :: rest := by
            rw [hef, he1]
            rw [List.filter_eq_self]
            intro a ha
            simpa using hall a ha
          obtain ⟨ef, es⟩ := e
          simp only at he1 this
          rw [he1, this]
        · simp at hmap
    rcases hsort : List.insertionSort leKey (j :: rest) with _ | ⟨x, xs⟩
    · exact absurd hsort (insertionSort_ne_nil leKey (by simp))
    · refine ⟨x, xs, rfl, ?_⟩
      unfold candidatesOf
      rw [hentry]
      simp only [List.filterMap_cons, List.filterMap_nil]
      rw [hsort]

/-! ### Facts about candidate selection -/

theorem pickEarliest_mem {c : List (String × Job)} {x : String × Job}
    (h : pickEarliest c = some x) : x ∈ c := by
  unfold pickEarliest at h
  rcases hsort : List.insertionSort leCreated c with _ | ⟨y, ys⟩
  · rw [hsort] at h; simp at h
  · rw [hsort] at h
    simp only [List.head?_cons, Option.some.injEq] at h
    subst h
    exact (head_insertionSort leCreated hsort).1

theorem pickEarliest_some {c : List (String × Job)} (h : c ≠ []) :
    ∃ x, pickEarliest c = some x := by
  rcases hsort : List.insertionSort leCreated c with _ | ⟨y, ys⟩
  · exact absurd hsort (insertionSort_ne_nil leCreated h)
  · exact ⟨y, by unfold pickEarliest; rw [hsort]; rfl⟩

theorem selectCandidate_mem {ls : Option String} {c : List (String × Job)}
    {x : String × Job} (h : selectCandidate ls c = some x) : x ∈ c := by
  rcases ls with _ | l
  · exact pickEarliest_mem h
  · rw [selectCandidate] at h
    by_cases hcond : l ≠ "" ∧ 1 < c.length
    · rw [if_pos hcond] at h
      by_cases hemp : (c.filter (fun e => e.1 ≠ l)).isEmpty
      · rw [if_pos hemp] at h
        exact pickEarliest_mem h
      · rw [if_neg hemp] at h
        exact List.mem_of_mem_filter (pickEarliest_mem h)
    · rw [if_neg hcond] at h
      exact pickEarliest_mem h

theorem selectCandidate_some {ls : Option String} {c : List (String × Job)}
    (h : c ≠ []) : ∃ x, selectCandidate ls c = some x := by
  rcases ls with _ | l
  · exact pickEarliest_some h
  · rw [selectCandidate]
    by_cases hcond : l ≠ "" ∧ 1 < c.length
    · rw [if_pos hcond]
      by_cases hemp : (c.filter (fun e => e.1 ≠ l)).isEmpty
      · rw [if_pos hemp]
        exact pickEarliest_some h
      · rw [if_neg hemp]
        apply pickEarliest_some
        intro hc
        rw [hc] at hemp
        exact hemp rfl
    · rw [if_neg hcond]
      exact pickEarliest_some h

theorem selectCandidate_avoid {l : String} {c : List (String × Job)}
    {x : String × Job} (h : selectCandidate (some l) c = some x)
    (hl : l ≠ "") (hex : ∃ e ∈ c, e.1 ≠ l) : x.1 ≠ l := by
  rcases hex with ⟨e, hec, hel⟩
  rw [selectCandidate] at h
  by_cases hcond : l ≠ "" ∧ 1 < c.length
  · rw [if_pos hcond] at h
    by_cases hemp : (c.filter (fun e2 => e2.1 ≠ l)).isEmpty
    · exfalso
      rw [List.isEmpty_iff, List.filter_eq_nil_iff] at hemp
      have he2 := hemp e hec
      simp only [decide_eq_true_eq, not_not] at he2
      exact hel he2
    · rw [if_neg hemp] at h
      have hx := pickEarliest_mem h
      have := (List.mem_filter.1 hx).2
      simpa using this
  · rw [if_neg hcond] at h
    have hlen : c.length ≤ 1 := by
      by_contra hlen2
      exact hcond ⟨hl, by omega⟩
    have hx := pickEarliest_mem h
    rcases c with _ | ⟨c1, cs⟩
    · simp at hx
    · rcases cs with _ | ⟨c2, cs2⟩
      · have hxe : x = c1 := by simpa using hx
        have hee : e = c1 := by simpa using hec
        rw [hxe, ← hee]
        exact hel
      · simp at hlen

/-! ### Characterization of `dequeueCore` -/

theorem dequeueCore_some_iff {s : QueueState} {q : List Job} {now : String}
    {j : Job} {s' : QueueState} {b : Bool}
    (h : dequeueCore s q now = (some j, s', b)) :
    ∃ gid sel, selectCandidate s.last_served_group (candidatesOf q) = some (gid, sel) ∧
      (gid, sel) ∈ candidatesOf q ∧
      j = { sel with state := "running", started_at := some now } ∧
      s' = { s with jobs := markRunning s.jobs sel.job_id now,
                    last_served_group := some gid } ∧
      b = true := by
  unfold dequeueCore at h
  split at h
  · simp at h
  · split at h
    · simp at h
    · rename_i hcne
      rcases hsel : selectCandidate s.last_served_group (candidatesOf q) with _ | ⟨gid, sel⟩
      · rw [hsel] at h; simp at h
      · rw [hsel] at h
        simp only [Prod.mk.injEq, Option.some.injEq] at h
        obtain ⟨h1, h2, h3⟩ := h
        exact ⟨gid, sel, rfl, selectCandidate_mem hsel, h1.symm, h2.symm, h3.symm⟩

theorem dequeueCore_ne_nil {s : QueueState} {q : List Job} {now : String}
    (h : q ≠ []) :
    ∃ gid sel,
      selectCandidate s.last_served_group (candidatesOf q) = some (gid, sel) ∧
      (gid, sel) ∈ candidatesOf q ∧
      dequeueCore s q now =
        (some { sel with state := "running", started_at := some now },
         { s with jobs := markRunning s.jobs sel.job_id now,
                  last_served_group := some gid }, true) := by
  have hcne := candidatesOf_ne_nil h
  rcases @selectCandidate_some s.last_served_group _ hcne with ⟨⟨gid, sel⟩, hsel⟩
  refine ⟨gid, sel, hsel, selectCandidate_mem hsel, ?_⟩
  unfold dequeueCore
  rw [if_neg (by simpa [List.isEmpty_iff] using h),
    if_neg (by simpa [List.isEmpty_iff] using hcne), hsel]

theorem dequeueCore_nil {s : QueueState} {now : String} :
    dequeueCore s [] now = (none, s, false) := rfl

theorem groupKey_ne_empty (j : Job) : groupKey j ≠ "" := by
  unfold groupKey
  rcases j.group_id with _ | g
  · decide
  · by_cases hg : g = ""
    · simp [hg]
    · simp [hg]

theorem selectCandidate_singleton (ls : Option String) (e : String × Job) :
    selectCandidate ls [e] = some e := by
  rcases ls with _ | l
  · rfl
  · rw [selectCandidate, if_neg (by simp)]
    rfl

/-- After serving group `A` (truthy cursor), the next dequeue avoids `A`
whenever some other group still has an eligible job. -/
theorem dequeue_avoids_last_served (s : QueueState) (paused : List String)
    (now : String) (A : String) (hlast : s.last_served_group = some A)
    (hA : A ≠ "") (hex : ∃ k ∈ s.jobs.filter (isEligible paused), groupKey k ≠ A) :
    ∃ k s'', dequeue_next s paused now = (some k, s'', true) ∧ groupKey k ≠ A ∧
      ∃ sel ∈ s.jobs.filter (isEligible paused), groupKey sel = groupKey k := by
  rcases hex with ⟨k0, hk0, hk0A⟩
  have hne : s.jobs.filter (isEligible paused) ≠ [] := by
    intro hc
    rw [hc] at hk0
    exact List.not_mem_nil _ hk0
  rcases @dequeueCore_ne_nil s (s.jobs.filter (isEligible paused)) now hne with
    ⟨gid, sel, hsel, hmem, heq⟩
  rcases candidatesOf_mem hmem with ⟨hselq, hkey, _⟩
  have hcand_ex : ∃ e ∈ candidatesOf (s.jobs.filter (isEligible paused)), e.1 ≠ A := by
    rcases candidatesOf_exists hk0 with ⟨x, hx⟩
    exact ⟨(groupKey k0, x), hx, hk0A⟩
  rw [hlast] at hsel
  have hgidA : gid ≠ A := selectCandidate_avoid hsel hA hcand_ex
  refine ⟨{ sel with state := "running", started_at := some now }, _, heq, ?_, ?_⟩
  · show groupKey { sel with state := "running", started_at := some now } ≠ A
    have : groupKey { sel with state := "running", started_at := some now } =
        groupKey sel := rfl
    rw [this, hkey]
    exact hgidA
  · exact ⟨sel, hselq, rfl⟩

/-! ## Claim theorems -/

/-- C1: a job with `requires_gpu = true` is never returned by the GPU-aware
`dequeue_next` when the `gpu_slots_available` argument is 0: whatever job is
dequeued has `requires_gpu = false`. -/
theorem gpu_job_ineligible_at_zero_slots :
    ∀ (s : QueueState) (paused : List String) (now : String)
      (j : Job) (s' : QueueState) (b : Bool),
      dequeueNextGpu s paused 0 now = (some j, s', b) →
      j.requires_gpu = false := by
  intro s paused now j s' b h
  unfold dequeueNextGpu at h
  rcases dequeueCore_some_iff h with ⟨gid, sel, hsel, hmem, hj, hs, hb⟩
  rcases candidatesOf_mem hmem with ⟨hselq, hkey, _⟩
  have hflt := (List.mem_filter.1 hselq).2
  simp only [Bool.and_eq_true, Bool.or_eq_true] at hflt
  rcases hflt.2 with hg | hlt
  · subst hj
    simpa using hg
  · simp at hlt

/-- Witness for C1: on a queue holding one CPU-only queued job, the GPU-aware
dequeue at 0 slots returns that job, and it indeed has `requires_gpu = false`. -/
theorem gpu_job_ineligible_at_zero_slots_witness :
    ((dequeueNextGpu c1State [] 0 "u1").1.map (fun j => j.requires_gpu) = some false) ∧
    ({ job_id := "job_t1_0001", kind := "run", run_id := "r1", group_id := some "g1",
       priority := 0, requires_gpu := false, state := "running", attempt := 1,
       created_at := "t1", started_at := some "u1", finished_at := none,
       error := none : Job }).requires_gpu = false := by
  constructor
  · rfl
  · exact gpu_job_ineligible_at_zero_slots c1State [] "u1" _ _ _ (by rfl)

/-- C10: when no queued job survives the pause filter, `dequeue_next`
returns `None`, the queue state (jobs and `last_served_group`) is exactly
the input state, and `save_queue` is never called. -/
theorem dequeue_noop_when_nothing_eligible :
    ∀ (s : QueueState) (paused : List String) (now : String),
      (∀ j ∈ s.jobs, isEligible paused j = false) →
      dequeue_next s paused now = (none, s, false) := by
  intro s paused now h
  unfold dequeue_next
  have hfe : s.jobs.filter (isEligible paused) = [] := by
    rw [List.filter_eq_nil_iff]
    intro a ha
    simp [h a ha]
  rw [hfe]
  rfl

/-- Witness for C10: with one running job and one queued job in a paused
group, nothing is eligible and the dequeue is a no-op that does not save. -/
theorem dequeue_noop_when_nothing_eligible_witness :
    (∀ j ∈ c10State.jobs, isEligible ["gp"] j = false) ∧
    dequeue_next c10State ["gp"] "u1" = (none, c10State, false) := by
  constructor
  · decide
  · exact dequeue_noop_when_nothing_eligible c10State ["gp"] "u1" (by decide)

/-- C4: enqueueing a run that already has exactly one queued-or-running job
raises the duplicate-run error (`ValueError` in the code, the spec's
`DuplicateRunError`), leaves the manager state unchanged, and the queue
still holds exactly one active job for that run. -/
theorem enqueue_duplicate_rejected :
    ∀ (m : Mgr) (r : String) (g : Option String) (p : Int) (now : String),
      activeCount m.queue r = 1 →
      enqueue m r g p now = .error ("Run " ++ r ++ " is already queued or running") ∧
      step m (.enq r g p now) = m ∧
      activeCount (step m (.enq r g p now)).queue r = 1 := by
  intro m r g p now h
  have hex : ∃ j ∈ m.queue.jobs, isActiveFor r j = true := by
    by_contra hc
    push_neg at hc
    have h0 : activeCount m.queue r = 0 := by
      unfold activeCount
      rw [List.countP_eq_zero]
      intro a ha
      simp [hc a ha]
    rw [h] at h0
    exact absurd h0 (by omega)
  obtain ⟨j, hj, hja⟩ := hex
  have hany : m.queue.jobs.any (isActiveFor r) = true := List.any_eq_true.2 ⟨j, hj, hja⟩
  have henq : enqueue m r g p now =
      .error ("Run " ++ r ++ " is already queued or running") := by
    unfold enqueue
    rw [if_pos hany]
  have hstep : step m (.enq r g p now) = m := by
    simp only [step, henq]
  exact ⟨henq, hstep, by rw [hstep]; exact h⟩

/-- Witness for C4: a second enqueue of `r` on `c4Mgr` errors and changes
nothing. -/
theorem enqueue_duplicate_rejected_witness :
    activeCount c4Mgr.queue "r" = 1 ∧
    enqueue c4Mgr "r" none 0 "t9" =
      .error ("Run " ++ "r" ++ " is already queued or running") ∧
    step c4Mgr (.enq "r" none 0 "t9") = c4Mgr ∧
    activeCount (step c4Mgr (.enq "r" none 0 "t9")).queue "r" = 1 := by
  refine ⟨by decide, ?_⟩
  exact enqueue_duplicate_rejected c4Mgr "r" none 0 "t9" (by decide)

/-- C6: within a single group, `dequeue_next` returns the queued job of
maximal priority, breaking ties by earliest `created_at` (part 1: the
returned job dominates every eligible job under the sort key); and on the
concrete S2 scenario the three dequeues return `high`, then `med`, then
`low` (part 2). -/
theorem dequeue_priority_within_group :
    (∀ (s : QueueState) (paused : List String) (now : String) (g : String),
      (∀ j ∈ s.jobs.filter (isEligible paused), groupKey j = g) →
      s.jobs.filter (isEligible paused) ≠ [] →
      ∃ j s', dequeue_next s paused now = (some j, s', true) ∧
        ∀ k ∈ s.jobs.filter (isEligible paused),
          k.priority < j.priority ∨
          (j.priority = k.priority ∧ strLe j.created_at k.created_at)) ∧
    ((dequeue_next s2Mgr.queue [] "u1").1.map (fun j => j.run_id) = some "high" ∧
     (dequeue_next s2m1.queue [] "u2").1.map (fun j => j.run_id) = some "med" ∧
     (dequeue_next s2m2.queue [] "u3").1.map (fun j => j.run_id) = some "low") := by
  constructor
  · intro s paused now g hall hne
    unfold dequeue_next
    rcases candidatesOf_single hall hne with ⟨x, xs, hsort, hcands⟩
    have hres : dequeueCore s (s.jobs.filter (isEligible paused)) now =
        (some { x with state := "running", started_at := some now },
         { s with jobs := markRunning s.jobs x.job_id now,
                  last_served_group := some g }, true) := by
      unfold dequeueCore
      rw [if_neg (by simpa [List.isEmpty_iff] using hne), hcands,
        if_neg (by simp), selectCandidate_singleton]
    refine ⟨_, _, hres, ?_⟩
    intro k hk
    have hmem : (g, x) ∈ candidatesOf (s.jobs.filter (isEligible paused)) := by
      rw [hcands]
      exact List.mem_singleton.2 rfl
    rcases candidatesOf_mem hmem with ⟨_, _, hopt⟩
    have hdom : leKey x k := hopt k hk (hall k hk)
    exact hdom
  · exact ⟨rfl, rfl, rfl⟩

/-- Witness for C6: applied to the S2 state, the dequeued job dominates
every queued job of the group. -/
theorem dequeue_priority_within_group_witness :
    ∃ j s', dequeue_next s2Mgr.queue [] "u1" = (some j, s', true) ∧
      ∀ k ∈ s2Mgr.queue.jobs.filter (isEligible []),
        k.priority < j.priority ∨
        (j.priority = k.priority ∧ strLe j.created_at k.created_at) :=
  dequeue_priority_within_group.1 s2Mgr.queue [] "u1" "g1" (by decide) (by decide)

/-- C3: with queued jobs in exactly two (unpaused) groups, the group labels
of successive dequeues strictly alternate while both groups still have
queued work (part 1); and the concrete S1 scenario dequeues
`g1-r1, g2-r1, g1-r2, g2-r2` in that order (part 2). -/
theorem dequeue_round_robin_alternates :
    (∀ (s : QueueState) (paused : List String) (now : String) (g1 g2 : String),
      g1 ≠ g2 →
      (∀ j ∈ s.jobs.filter (isEligible paused), groupKey j = g1 ∨ groupKey j = g2) →
      (∃ j ∈ s.jobs.filter (isEligible paused), groupKey j = g1) →
      (∃ j ∈ s.jobs.filter (isEligible paused), groupKey j = g2) →
      ∃ j s', dequeue_next s paused now = (some j, s', true) ∧
        (groupKey j = g1 ∨ groupKey j = g2) ∧
        s'.last_served_group = some (groupKey j) ∧
        ∀ (now2 : String),
          (∀ k ∈ s'.jobs.filter (isEligible paused), groupKey k = g1 ∨ groupKey k = g2) →
          (∃ k ∈ s'.jobs.filter (isEligible paused), groupKey k = g1) →
          (∃ k ∈ s'.jobs.filter (isEligible paused), groupKey k = g2) →
          ∃ k s'', dequeue_next s' paused now2 = (some k, s'', true) ∧
            groupKey k ≠ groupKey j ∧ (groupKey k = g1 ∨ groupKey k = g2)) ∧
    ((dequeue_next s1Mgr.queue [] "u1").1.map (fun j => j.run_id) = some "g1-r1" ∧
     (dequeue_next s1m1.queue [] "u2").1.map (fun j => j.run_id) = some "g2-r1" ∧
     (dequeue_next s1m2.queue [] "u3").1.map (fun j => j.run_id) = some "g1-r2" ∧
     (dequeue_next s1m3.queue [] "u4").1.map (fun j => j.run_id) = some "g2-r2") := by
  constructor
  · intro s paused now g1 g2 hne12 hall hex1 hex2
    have hne : s.jobs.filter (isEligible paused) ≠ [] := by
      rcases hex1 with ⟨j0, hj0, _⟩
      intro hc
      rw [hc] at hj0
      exact List.not_mem_nil _ hj0
    rcases @dequeueCore_ne_nil s (s.jobs.filter (isEligible paused)) now hne with
      ⟨gid, sel, hsel, hmem, heq⟩
    rcases candidatesOf_mem hmem with ⟨hselq, hkey, _⟩
    have hupdkey : groupKey { sel with state := "running", started_at := some now } =
        groupKey sel := rfl
    refine ⟨_, _, heq, ?_, ?_, ?_⟩
    · rw [hupdkey]
      exact hall sel hselq
    · show some gid = some (groupKey _)
      rw [hupdkey, hkey]
    · intro now2 hall2 hex21 hex22
      set s' : QueueState :=
        { s with jobs := markRunning s.jobs sel.job_id now,
                 last_served_group := some gid } with hs'
      have hlast : s'.last_served_group = some (groupKey sel) := by
        rw [hs', hkey]
      have hgne : groupKey sel ≠ "" := groupKey_ne_empty sel
      have hexother : ∃ k ∈ s'.jobs.filter (isEligible paused),
          groupKey k ≠ groupKey sel := by
        rcases hall sel hselq with hsel1 | hsel2
        · rcases hex22 with ⟨k, hk, hkg⟩
          exact ⟨k, hk, by rw [hkg, hsel1]; exact (Ne.symm hne12)⟩
        · rcases hex21 with ⟨k, hk, hkg⟩
          exact ⟨k, hk, by rw [hkg, hsel2]; exact hne12⟩
      rcases dequeue_avoids_last_served s' paused now2 (groupKey sel) hlast hgne
        hexother with ⟨k, s'', heq2, hkne, ⟨sel2, hsel2q, hsel2k⟩⟩
      refine ⟨k, s'', heq2, ?_, ?_⟩
      · rw [hupdkey]
        exact hkne
      · rw [← hsel2k]
        exact hall2 sel2 hsel2q
  · exact ⟨rfl, rfl, rfl, rfl⟩

/-- Witness for C3: applied to the S1 state after no dequeues, with both
groups holding queued jobs. -/
theorem dequeue_round_robin_alternates_witness :
    ∃ j s', dequeue_next s1Mgr.queue [] "u1" = (some j, s', true) ∧
      (groupKey j = "g1" ∨ groupKey j = "g2") ∧
      s'.last_served_group = some (groupKey j) ∧
      ∀ (now2 : String),
        (∀ k ∈ s'.jobs.filter (isEligible []), groupKey k = "g1" ∨ groupKey k = "g2") →
        (∃ k ∈ s'.jobs.filter (isEligible []), groupKey k = "g1") →
        (∃ k ∈ s'.jobs.filter (isEligible []), groupKey k = "g2") →
        ∃ k s'', dequeue_next s' [] now2 = (some k, s'', true) ∧
          groupKey k ≠ groupKey j ∧ (groupKey k = "g1" ∨ groupKey k = "g2") :=
  dequeue_round_robin_alternates.1 s1Mgr.queue [] "u1" "g1" "g2"
    (by decide) (by decide) (by decide) (by decide)

/-! ### List-level facts about the first-match mutators -/

theorem markRunning_map_id (l : List Job) (tgt now : String) :
    (markRunning l tgt now).map (fun j => j.job_id) = l.map (fun j => j.job_id) := by
  induction l with
  | nil => rfl
  | cons j rest ih =>
      unfold markRunning
      by_cases h : j.job_id = tgt <;> simp [h, ih]

theorem completeFirst_map_id (l : List Job) (tgt : String) (success : Bool)
    (e : Option String) (now : String) :
    (completeFirst l tgt success e now).map (fun j => j.job_id) =
      l.map (fun j => j.job_id) := by
  induction l with
  | nil => rfl
  | cons j rest ih =>
      unfold completeFirst
      by_cases h : j.job_id = tgt <;> simp [h, ih]

theorem cancelFirst_map_id (l : List Job) (tgt now : String) :
    ((cancelFirst l tgt now).1).map (fun j => j.job_id) =
      l.map (fun j => j.job_id) := by
  induction l with
  | nil => rfl
  | cons j rest ih =>
      unfold cancelFirst
      by_cases h : j.job_id = tgt
      · by_cases hq : j.state = "queued" <;> simp [h, hq]
      · simp [h, ih]

theorem cancelGroup_map_id (s : QueueState) (gid now : String) :
    (cancel_group s gid now).jobs.map (fun j => j.job_id) =
      s.jobs.map (fun j => j.job_id) := by
  show (s.jobs.map _).map _ = _
  rw [List.map_map]
  apply List.map_congr_left
  intro j _
  by_cases h : j.group_id = some gid ∧ j.state = "queued" <;> simp [h]

theorem countP_markRunning (l : List Job) (tgt now : String) (p : Job → Bool)
    (h : ∀ j ∈ l, j.job_id = tgt →
      p { j with state := "running", started_at := some now } = p j) :
    (markRunning l tgt now).countP p = l.countP p := by
  induction l with
  | nil => rfl
  | cons j rest ih =>
      unfold markRunning
      by_cases hj : j.job_id = tgt
      · rw [if_pos hj, List.countP_cons, List.countP_cons,
          h j (List.mem_cons_self _ _) hj]
      · rw [if_neg hj, List.countP_cons, List.countP_cons,
          ih (fun k hk hkt => h k (List.mem_cons_of_mem _ hk) hkt)]

theorem countP_completeFirst_le (l : List Job) (tgt : String) (success : Bool)
    (e : Option String) (now r : String) :
    (completeFirst l tgt success e now).countP (isActiveFor r) ≤
      l.countP (isActiveFor r) := by
  induction l with
  | nil => simp [completeFirst]
  | cons j rest ih =>
      unfold completeFirst
      by_cases hj : j.job_id = tgt
      · rw [if_pos hj, List.countP_cons, List.countP_cons]
        have hup : isActiveFor r { j with
            state := if success then "succeeded" else "failed",
            finished_at := some now, error := e } = false := by
          unfold isActiveFor
          cases success <;> simp
        rw [hup]
        simp only [Bool.false_eq_true, if_false, Nat.add_zero]
        split <;> omega
      · rw [if_neg hj, List.countP_cons, List.countP_cons]
        exact Nat.add_le_add ih (le_refl _)

theorem countP_cancelFirst_le (l : List Job) (tgt now r : String) :
    ((cancelFirst l tgt now).1).countP (isActiveFor r) ≤
      l.countP (isActiveFor r) := by
  induction l with
  | nil => simp [cancelFirst]
  | cons j rest ih =>
      unfold cancelFirst
      by_cases hj : j.job_id = tgt
      · by_cases hq : j.state = "queued"
        · simp only [if_pos hj, if_pos hq, List.countP_cons]
          have hup :
              isActiveFor r { j with state := "canceled", finished_at := some now } = false := by
            unfold isActiveFor
            simp
          rw [hup]
          simp only [Bool.false_eq_true, if_false, Nat.add_zero]
          split <;> omega
        · simp only [if_pos hj, if_neg hq]
          exact le_refl _
      · simp only [if_neg hj, List.countP_cons]
        exact Nat.add_le_add ih (le_refl _)

theorem countP_map_le (l : List Job) (f : Job → Job) (p : Job → Bool)
    (h : ∀ a ∈ l, p (f a) = true → p a = true) :
    (l.map f).countP p ≤ l.countP p := by
  induction l with
  | nil => simp
  | cons j rest ih =>
      rw [List.map_cons, List.countP_cons, List.countP_cons]
      have hrest := ih (fun a ha hp => h a (List.mem_cons_of_mem _ ha) hp)
      by_cases hp : p (f j) = true
      · rw [hp, h j (List.mem_cons_self _ _) hp]
        omega
      · rw [Bool.not_eq_true] at hp
        rw [hp]
        simp only [Bool.false_eq_true, if_false, Nat.add_zero]
        split <;> omega

/-! ### Facts about `retryJobs` -/

theorem retryJobs_counter_le (gid now : String) :
    ∀ (l : List Job) (c : Nat), c ≤ (retryJobs l gid c now).2 := by
  intro l
  induction l with
  | nil => intro c; exact le_refl _
  | cons j rest ih =>
      intro c
      unfold retryJobs
      by_cases h : isFailedIn gid j = true
      · rw [if_pos h]
        exact le_trans (by omega) (ih (c + 1))
      · rw [if_neg h]
        exact ih c

theorem retryJobs_mem (gid now : String) :
    ∀ (l : List Job) (c : Nat), ∀ j' ∈ (retryJobs l gid c now).1,
      c < decCounter j'.job_id ∧
      decCounter j'.job_id ≤ (retryJobs l gid c now).2 ∧
      j'.state = "queued" := by
  intro l
  induction l with
  | nil => intro c j' hj'; simp [retryJobs] at hj'
  | cons j rest ih =>
      intro c j' hj'
      unfold retryJobs at hj' ⊢
      by_cases h : isFailedIn gid j = true
      · rw [if_pos h] at hj' ⊢
        rcases List.mem_cons.1 hj' with rfl | hj2
        · refine ⟨?_, ?_, rfl⟩
          · show c < decCounter (genJobId now (c + 1))
            rw [decCounter_genJobId]
            omega
          · show decCounter (genJobId now (c + 1)) ≤ _
            rw [decCounter_genJobId]
            exact retryJobs_counter_le gid now rest (c + 1)
        · have := ih (c + 1) j' hj2
          exact ⟨by omega, this.2.1, this.2.2⟩
      · rw [if_neg h] at hj' ⊢
        exact ih c j' hj'

theorem retryJobs_nodup (gid now : String) :
    ∀ (l : List Job) (c : Nat),
      ((retryJobs l gid c now).1.map (fun j => j.job_id)).Nodup := by
  intro l
  induction l with
  | nil => intro c; simp [retryJobs]
  | cons j rest ih =>
      intro c
      unfold retryJobs
      by_cases h : isFailedIn gid j = true
      · rw [if_pos h]
        rw [List.map_cons, List.nodup_cons]
        constructor
        · intro hc
          rcases List.mem_map.1 hc with ⟨j', hj', hid⟩
          have := (retryJobs_mem gid now rest (c + 1) j' hj').1
          rw [hid] at this
          show False
          have hdec : decCounter (retryJob j (genJobId now (c + 1)) now).job_id = c + 1 := by
            show decCounter (genJobId now (c + 1)) = c + 1
            exact decCounter_genJobId now (c + 1)
          omega
        · exact ih (c + 1)
      · rw [if_neg h]
        exact ih c

theorem retryJobs_countP (gid now r : String) :
    ∀ (l : List Job) (c : Nat),
      (retryJobs l gid c now).1.countP (isActiveFor r) =
        l.countP (fun j => isFailedIn gid j && (j.run_id == r)) := by
  intro l
  induction l with
  | nil => intro c; rfl
  | cons j rest ih =>
      intro c
      unfold retryJobs
      by_cases h : isFailedIn gid j = true
      · rw [if_pos h]
        rw [List.countP_cons, List.countP_cons, ih (c + 1)]
        have : isActiveFor r (retryJob j (genJobId now (c + 1)) now) = (j.run_id == r) := by
          unfold isActiveFor retryJob
          simp
        rw [this, h]
        simp
      · rw [if_neg h]
        rw [List.countP_cons, ih c]
        have hb : (isFailedIn gid j && (j.run_id == r)) = false := by
          rw [Bool.not_eq_true] at h
          rw [h]
          rfl
        rw [hb]
        simp

/-! ### Case analysis of a full `dequeue_next` call -/

theorem dequeue_next_cases (s : QueueState) (paused : List String) (now : String) :
    dequeue_next s paused now = (none, s, false) ∨
    ∃ sel, sel ∈ s.jobs.filter (isEligible paused) ∧
      dequeue_next s paused now =
        (some { sel with state := "running", started_at := some now },
         { s with jobs := markRunning s.jobs sel.job_id now,
                  last_served_group := some (groupKey sel) }, true) := by
  by_cases hne : s.jobs.filter (isEligible paused) = []
  · left
    unfold dequeue_next
    rw [hne]
    rfl
  · right
    rcases @dequeueCore_ne_nil s (s.jobs.filter (isEligible paused)) now hne with
      ⟨gid, sel, hsel, hmem, heq⟩
    rcases candidatesOf_mem hmem with ⟨hselq, hkey, _⟩
    subst hkey
    exact ⟨sel, hselq, heq⟩

theorem filter_mem_queued {paused : List String} {s : QueueState} {sel : Job}
    (h : sel ∈ s.jobs.filter (isEligible paused)) :
    sel ∈ s.jobs ∧ sel.state = "queued" := by
  have h2 := List.mem_filter.1 h
  refine ⟨h2.1, ?_⟩
  have := h2.2
  unfold isEligible at this
  simp only [Bool.and_eq_true, beq_iff_eq] at this
  exact this.1

/-! ### `find?` under distinct job ids -/

theorem find?_of_mem_nodup :
    ∀ {l : List Job}, (l.map (fun j => j.job_id)).Nodup →
      ∀ {sel : Job}, sel ∈ l →
      l.find? (fun j => j.job_id == sel.job_id) = some sel := by
  intro l
  induction l with
  | nil => intro _ sel h; simp at h
  | cons j rest ih =>
      intro hnd sel hsel
      rw [List.map_cons, List.nodup_cons] at hnd
      by_cases hj : (j.job_id == sel.job_id) = true
      · rcases List.mem_cons.1 hsel with rfl | hsel2
        · simp [List.find?]
        · exfalso
          apply hnd.1
          rw [beq_iff_eq] at hj
          rw [hj]
          exact List.mem_map_of_mem _ hsel2
      · rw [Bool.not_eq_true] at hj
        rcases List.mem_cons.1 hsel with rfl | hsel2
        · simp at hj
        · have hstep : List.find? (fun k => k.job_id == sel.job_id) (j :: rest) =
              List.find? (fun k => k.job_id == sel.job_id) rest := by
            simp [List.find?, hj]
          rw [hstep]
          exact ih hnd.2 hsel2

/-- Shape of a successful `enqueue`. -/
theorem enqueue_ok_shape {m : Mgr} {r : String} {g : Option String} {p : Int}
    {now : String} {j : Job} {m' : Mgr}
    (h : enqueue m r g p now = .ok (j, m')) :
    m'.queue.jobs = m.queue.jobs ++ [j] ∧ m'.counter = m.counter + 1 ∧
    j.job_id = genJobId now (m.counter + 1) ∧ j.state = "queued" ∧
    j.run_id = r ∧ m'.queue.last_served_group = m.queue.last_served_group ∧
    m.queue.jobs.countP (isActiveFor r) = 0 := by
  unfold enqueue at h
  split at h
  · exact absurd h (by simp)
  · rename_i hany
    simp only [Except.ok.injEq, Prod.mk.injEq] at h
    obtain ⟨hj, hm⟩ := h
    subst hm
    subst hj
    refine ⟨rfl, rfl, rfl, rfl, rfl, rfl, ?_⟩
    rw [List.countP_eq_zero]
    intro a ha hc
    exact hany (List.any_eq_true.2 ⟨a, ha, hc⟩)

/-! ### Preservation of `JobsWf` -/

theorem jobsWf_step (m : Mgr) (op : Op) (h : JobsWf m) : JobsWf (step m op) := by
  obtain ⟨hdec, hnd⟩ := h
  cases op with
  | enq r g p now =>
      simp only [step]
      rcases henq : enqueue m r g p now with e | jm
      · exact ⟨hdec, hnd⟩
      · obtain ⟨j, m'⟩ := jm
        obtain ⟨hjobs, hcounter, hjid, hjstate, hjrun, hlast, hdup⟩ :=
          enqueue_ok_shape henq
        show JobsWf m'
        constructor
        · intro i hi
          rw [hjobs, List.map_append, List.map_cons, List.map_nil] at hi
          rcases List.mem_append.1 hi with hi | hi
          · exact le_trans (hdec i hi) (by omega)
          · simp only [List.mem_singleton] at hi
            rw [hi, hjid, hcounter, decCounter_genJobId]
        · rw [hjobs, List.map_append, List.map_cons, List.map_nil]
          refine List.Nodup.append hnd (List.nodup_singleton _) ?_
          intro i hi1 hi2
          simp only [List.mem_singleton] at hi2
          have h1 := hdec i hi1
          rw [hi2, hjid, decCounter_genJobId] at h1
          omega
  | deq paused now =>
      rcases dequeue_next_cases m.queue paused now with hcase | ⟨sel, hselmem, hcase⟩
      · simp only [step, hcase]
        exact ⟨hdec, hnd⟩
      · simp only [step, hcase]
        constructor
        · intro i hi
          simp only [markRunning_map_id] at hi
          exact hdec i hi
        · show ((markRunning m.queue.jobs sel.job_id now).map (fun j => j.job_id)).Nodup
          rw [markRunning_map_id]
          exact hnd
  | comp jid success e now =>
      constructor
      · intro i hi
        show decCounter i ≤ m.counter
        apply hdec i
        show i ∈ m.queue.jobs.map (fun j => j.job_id)
        rw [← completeFirst_map_id m.queue.jobs jid success e now]
        exact hi
      · show ((completeFirst m.queue.jobs jid success e now).map (fun j => j.job_id)).Nodup
        rw [completeFirst_map_id]
        exact hnd
  | cancel jid now =>
      constructor
      · intro i hi
        apply hdec i
        show i ∈ m.queue.jobs.map (fun j => j.job_id)
        rw [← cancelFirst_map_id m.queue.jobs jid now]
        exact hi
      · show (((cancelFirst m.queue.jobs jid now).1).map (fun j => j.job_id)).Nodup
        rw [cancelFirst_map_id]
        exact hnd
  | cancelGrp gid now =>
      constructor
      · intro i hi
        apply hdec i
        show i ∈ m.queue.jobs.map (fun j => j.job_id)
        rw [← cancelGroup_map_id m.queue gid now]
        exact hi
      · show ((cancel_group m.queue gid now).jobs.map (fun j => j.job_id)).Nodup
        rw [cancelGroup_map_id]
        exact hnd
  | retry gid now =>
      constructor
      · intro i hi
        simp only [step, retry_failed, List.map_append, List.mem_append] at hi ⊢
        rcases hi with hi | hi
        · exact le_trans (hdec i hi)
            (retryJobs_counter_le gid now m.queue.jobs m.counter)
        · rcases List.mem_map.1 hi with ⟨j', hj', hji⟩
          rw [← hji]
          exact (retryJobs_mem gid now m.queue.jobs m.counter j' hj').2.1
      · simp only [step, retry_failed, List.map_append]
        refine List.Nodup.append hnd (retryJobs_nodup gid now _ _) ?_
        intro i hi1 hi2
        rcases List.mem_map.1 hi2 with ⟨j', hj', hji⟩
        have h1 := hdec i hi1
        have h2 := (retryJobs_mem gid now m.queue.jobs m.counter j' hj').1
        rw [← hji] at h1
        omega

/-! ### Preservation of `UniqueActive` -/

theorem uniqueActive_step (m : Mgr) (op : Op) (hwf : JobsWf m)
    (hinv : UniqueActive m.queue) (hok : opRetrySafe m op) :
    UniqueActive (step m op).queue := by
  obtain ⟨hdec, hnd⟩ := hwf
  cases op with
  | enq r g p now =>
      intro r2
      simp only [step]
      rcases henq : enqueue m r g p now with e | jm
      · exact hinv r2
      · obtain ⟨j, m'⟩ := jm
        obtain ⟨hjobs, hcounter, hjid, hjstate, hjrun, hlast, hdup⟩ :=
          enqueue_ok_shape henq
        show m'.queue.jobs.countP (isActiveFor r2) ≤ 1
        rw [hjobs, List.countP_append, List.countP_cons, List.countP_nil]
        by_cases hr : r = r2
        · rw [← hr, hdup]
          split <;> omega
        · have hja : isActiveFor r2 j = false := by
            unfold isActiveFor
            rw [hjrun]
            simp [hr]
          rw [hja]
          have := hinv r2
          unfold UniqueActive activeCount at this
          simp only [Bool.false_eq_true, if_false, Nat.add_zero, Nat.zero_add]
          omega
  | deq paused now =>
      rcases dequeue_next_cases m.queue paused now with hcase | ⟨sel, hselmem, hcase⟩
      · intro r2
        simp only [step, hcase]
        exact hinv r2
      · intro r2
        simp only [step, hcase]
        show (markRunning m.queue.jobs sel.job_id now).countP (isActiveFor r2) ≤ 1
        obtain ⟨hselq, hstate⟩ := filter_mem_queued hselmem
        rw [countP_markRunning]
        · exact hinv r2
        · intro j hj hid
          have hjsel : j = sel := List.inj_on_of_nodup_map hnd hj hselq hid
          subst hjsel
          unfold isActiveFor
          rw [hstate]
          simp
  | comp jid success e now =>
      intro r2
      show (completeFirst m.queue.jobs jid success e now).countP (isActiveFor r2) ≤ 1
      exact le_trans (countP_completeFirst_le m.queue.jobs jid success e now r2) (hinv r2)
  | cancel jid now =>
      intro r2
      show ((cancelFirst m.queue.jobs jid now).1).countP (isActiveFor r2) ≤ 1
      exact le_trans (countP_cancelFirst_le m.queue.jobs jid now r2) (hinv r2)
  | cancelGrp gid now =>
      intro r2
      show (m.queue.jobs.map _).countP (isActiveFor r2) ≤ 1
      refine le_trans (countP_map_le m.queue.jobs _ (isActiveFor r2) ?_) (hinv r2)
      intro a ha hp
      by_cases hc : a.group_id = some gid ∧ a.state = "queued"
      · rw [if_pos hc] at hp
        unfold isActiveFor at hp
        simp at hp
      · rw [if_neg hc] at hp
        exact hp
  | retry gid now =>
      intro r2
      show (m.queue.jobs ++ (retryJobs m.queue.jobs gid m.counter now).1).countP
        (isActiveFor r2) ≤ 1
      rw [List.countP_append, retryJobs_countP]
      by_cases hz : m.queue.jobs.countP
          (fun j => isFailedIn gid j && (j.run_id == r2)) = 0
      · rw [hz]
        have := hinv r2
        unfold UniqueActive activeCount at this
        omega
      · have hpos : 0 < m.queue.jobs.countP
            (fun j => isFailedIn gid j && (j.run_id == r2)) := Nat.pos_of_ne_zero hz
        rcases List.countP_pos_iff.1 hpos with ⟨a, ha, hpa⟩
        simp only [Bool.and_eq_true, beq_iff_eq] at hpa
        have hsafe : SafeRetry m.queue gid := hok
        have hs := hsafe a ha hpa.1
        rw [hpa.2] at hs
        unfold activeCount at hs
        exact hs

/-! ### Observable job state under each mutator -/

theorem findState_cons_pos {j : Job} {l : List Job} {jid : String}
    (h : (j.job_id == jid) = true) : findState (j :: l) jid = some j.state := by
  unfold findState
  simp [List.find?, h]

theorem findState_cons_neg {j : Job} {l : List Job} {jid : String}
    (h : (j.job_id == jid) = false) : findState (j :: l) jid = findState l jid := by
  unfold findState
  simp [List.find?, h]

theorem findState_markRunning (l : List Job) (tgt now jid : String) :
    findState (markRunning l tgt now) jid =
      if jid = tgt then (findState l jid).map (fun _ => "running")
      else findState l jid := by
  induction l with
  | nil =>
      by_cases h : jid = tgt <;> simp [markRunning, findState, h]
  | cons j rest ih =>
      unfold markRunning
      by_cases hj : j.job_id = tgt
      · rw [if_pos hj]
        by_cases hb : (j.job_id == jid) = true
        · have hjid : jid = tgt := by
            rw [beq_iff_eq] at hb
            rw [← hb, hj]
          have hb2 : ((({ j with state := "running", started_at := some now } : Job)).job_id == jid) = true := hb
          rw [if_pos hjid]
          rw [findState_cons_pos hb2, findState_cons_pos hb]
          rfl
        · rw [Bool.not_eq_true] at hb
          have hjid : jid ≠ tgt := by
            intro hc
            rw [hc, ← hj] at hb
            simp at hb
          have hb2 : ((({ j with state := "running", started_at := some now } : Job)).job_id == jid) = false := hb
          rw [if_neg hjid, findState_cons_neg hb2, findState_cons_neg hb]
      · rw [if_neg hj]
        by_cases hb : (j.job_id == jid) = true
        · have hjid : jid ≠ tgt := by
            intro hc
            rw [beq_iff_eq] at hb
            exact hj (hb.trans hc)
          rw [if_neg hjid, findState_cons_pos hb, findState_cons_pos hb]
        · rw [Bool.not_eq_true] at hb
          rw [findState_cons_neg hb, findState_cons_neg hb, ih]

theorem findState_completeFirst (l : List Job) (tgt : String) (success : Bool)
    (e : Option String) (now jid : String) :
    findState (completeFirst l tgt success e now) jid =
      if jid = tgt then
        (findState l jid).map (fun _ => if success then "succeeded" else "failed")
      else findState l jid := by
  induction l with
  | nil =>
      by_cases h : jid = tgt <;> simp [completeFirst, findState, h]
  | cons j rest ih =>
      unfold completeFirst
      by_cases hj : j.job_id = tgt
      · rw [if_pos hj]
        by_cases hb : (j.job_id == jid) = true
        · have hjid : jid = tgt := by
            rw [beq_iff_eq] at hb
            rw [← hb, hj]
          have hb2 : ((({ j with state := if success then "succeeded" else "failed", finished_at := some now, error := e } : Job)).job_id == jid) = true := hb
          rw [if_pos hjid]
          rw [findState_cons_pos hb2, findState_cons_pos hb]
          rfl
        · rw [Bool.not_eq_true] at hb
          have hjid : jid ≠ tgt := by
            intro hc
            rw [hc, ← hj] at hb
            simp at hb
          have hb2 : ((({ j with state := if success then "succeeded" else "failed", finished_at := some now, error := e } : Job)).job_id == jid) = false := hb
          rw [if_neg hjid, findState_cons_neg hb2, findState_cons_neg hb]
      · rw [if_neg hj]
        by_cases hb : (j.job_id == jid) = true
        · have hjid : jid ≠ tgt := by
            intro hc
            rw [beq_iff_eq] at hb
            exact hj (hb.trans hc)
          rw [if_neg hjid, findState_cons_pos hb, findState_cons_pos hb]
        · rw [Bool.not_eq_true] at hb
          rw [findState_cons_neg hb, findState_cons_neg hb, ih]

theorem findState_cancelFirst (l : List Job) (tgt now jid : String) :
    findState ((cancelFirst l tgt now).1) jid =
      if jid = tgt then
        (findState l jid).map (fun a => if a = "queued" then "canceled" else a)
      else findState l jid := by
  induction l with
  | nil =>
      by_cases h : jid = tgt <;> simp [cancelFirst, findState, h]
  | cons j rest ih =>
      unfold cancelFirst
      by_cases hj : j.job_id = tgt
      · rw [if_pos hj]
        by_cases hq : j.state = "queued"
        · rw [if_pos hq]
          by_cases hb : (j.job_id == jid) = true
          · have hjid : jid = tgt := by
              rw [beq_iff_eq] at hb
              rw [← hb, hj]
            have hb2 : ((({ j with state := "canceled", finished_at := some now } : Job)).job_id == jid) = true := hb
            rw [if_pos hjid]
            rw [findState_cons_pos hb2, findState_cons_pos hb]
            simp [hq]
          · rw [Bool.not_eq_true] at hb
            have hjid : jid ≠ tgt := by
              intro hc
              rw [hc, ← hj] at hb
              simp at hb
            have hb2 : ((({ j with state := "canceled", finished_at := some now } : Job)).job_id == jid) = false := hb
            rw [if_neg hjid, findState_cons_neg hb2, findState_cons_neg hb]
        · rw [if_neg hq]
          by_cases hb : (j.job_id == jid) = true
          · have hjid : jid = tgt := by
              rw [beq_iff_eq] at hb
              rw [← hb, hj]
            rw [if_pos hjid]
            rw [findState_cons_pos hb]
            simp [hq]
          · rw [Bool.not_eq_true] at hb
            have hjid : jid ≠ tgt := by
              intro hc
              rw [hc, ← hj] at hb
              simp at hb
            rw [if_neg hjid, findState_cons_neg hb]
      · by_cases hb : (j.job_id == jid) = true
        · have hjid : jid ≠ tgt := by
            intro hc
            rw [beq_iff_eq] at hb
            exact hj (hb.trans hc)
          rw [if_neg hj]
          show findState (j :: (cancelFirst rest tgt now).1) jid = _
          rw [if_neg hjid, findState_cons_pos hb, findState_cons_pos hb]
        · rw [Bool.not_eq_true] at hb
          rw [if_neg hj]
          show findState (j :: (cancelFirst rest tgt now).1) jid = _
          rw [findState_cons_neg hb, findState_cons_neg hb, ih]

theorem find?_map_id_pres (l : List Job) (f : Job → Job) (jid : String)
    (h : ∀ a, (f a).job_id = a.job_id) :
    (l.map f).find? (fun k => k.job_id == jid) =
      (l.find? (fun k => k.job_id == jid)).map f := by
  induction l with
  | nil => rfl
  | cons j rest ih =>
      rw [List.map_cons]
      by_cases hb : (j.job_id == jid) = true
      · have hb2 : ((f j).job_id == jid) = true := by
          rw [h j]
          exact hb
        simp [List.find?, hb, hb2]
      · rw [Bool.not_eq_true] at hb
        have hb2 : ((f j).job_id == jid) = false := by
          rw [h j]
          exact hb
        simp [List.find?, hb, hb2, ih]

theorem findState_cancelGroup (s : QueueState) (gid now jid : String) :
    findState (cancel_group s gid now).jobs jid =
      (s.jobs.find? (fun k => k.job_id == jid)).map
        (fun j => if j.group_id = some gid ∧ j.state = "queued" then "canceled"
                  else j.state) := by
  show findState (s.jobs.map _) jid = _
  unfold findState
  rw [find?_map_id_pres]
  · rcases hfind : s.jobs.find? (fun k => k.job_id == jid) with _ | j
    · rw [hfind]
      rfl
    · rw [hfind]
      show some _ = some _
      by_cases h : j.group_id = some gid ∧ j.state = "queued" <;> simp [h]
  · intro a
    by_cases h : a.group_id = some gid ∧ a.state = "queued" <;> simp [h]

theorem findState_append (l1 l2 : List Job) (jid : String) :
    findState (l1 ++ l2) jid = (findState l1 jid).or (findState l2 jid) := by
  unfold findState
  rw [List.find?_append]
  generalize l1.find? (fun j => j.job_id == jid) = o1
  cases o1 <;> simp

theorem findState_retry_queued {l : List Job} {gid now : String} {c : Nat}
    {jid b : String}
    (h : findState (retryJobs l gid c now).1 jid = some b) : b = "queued" := by
  unfold findState at h
  rcases hf : (retryJobs l gid c now).1.find? (fun k => k.job_id == jid) with _ | j
  · rw [hf] at h
    simp at h
  · rw [hf] at h
    simp only [Option.map_some', Option.some.injEq] at h
    have hmem := List.mem_of_find?_eq_some hf
    have hq := (retryJobs_mem gid now l c j hmem).2.2
    rw [← h, hq]

/-! ### Allowed transitions under each operation -/

theorem step_allowed (m : Mgr) (op : Op) (hwf : JobsWf m)
    (hok : opCompletesRunning m op) :
    (∀ jid a b, stateOf m.queue jid = some a →
       stateOf (step m op).queue jid = some b → allowedStep a b) ∧
    (∀ jid b, stateOf m.queue jid = none →
       stateOf (step m op).queue jid = some b → b = "queued") := by
  obtain ⟨hdec, hnd⟩ := hwf
  cases op with
  | enq r g p now =>
      simp only [step]
      rcases henq : enqueue m r g p now with e | jm
      · refine ⟨fun jid a b h1 h2 => ?_, fun jid b h1 h2 => ?_⟩
        · rw [h1] at h2
          exact (Option.some.inj h2) ▸ .inl rfl
        · rw [h1] at h2
          exact absurd h2 (by simp)
      · obtain ⟨j, m'⟩ := jm
        obtain ⟨hjobs, _, _, hjstate, _, _, _⟩ := enqueue_ok_shape henq
        have hstates : ∀ jid, stateOf m'.queue jid =
            (findState m.queue.jobs jid).or (findState [j] jid) := by
          intro jid
          show findState m'.queue.jobs jid = _
          rw [hjobs, findState_append]
        refine ⟨fun jid a b h1 h2 => ?_, fun jid b h1 h2 => ?_⟩
        · rw [hstates jid] at h2
          have h1f : findState m.queue.jobs jid = some a := h1
          rw [h1f] at h2
          simp only [Option.or_some] at h2
          exact (Option.some.inj h2) ▸ .inl rfl
        · rw [hstates jid] at h2
          have h1f : findState m.queue.jobs jid = none := h1
          rw [h1f] at h2
          simp only [Option.none_or] at h2
          by_cases hb2 : (j.job_id == jid) = true
          · rw [findState_cons_pos hb2] at h2
            rw [← Option.some.inj h2, hjstate]
          · rw [Bool.not_eq_true] at hb2
            rw [findState_cons_neg hb2] at h2
            exact absurd h2 (by simp [findState])
  | deq paused now =>
      rcases dequeue_next_cases m.queue paused now with hcase | ⟨sel, hselmem, hcase⟩
      · simp only [step, hcase]
        refine ⟨fun jid a b h1 h2 => ?_, fun jid b h1 h2 => ?_⟩
        · rw [h1] at h2
          exact (Option.some.inj h2) ▸ .inl rfl
        · rw [h1] at h2
          exact absurd h2 (by simp)
      · obtain ⟨hselq, hstate⟩ := filter_mem_queued hselmem
        have hstates : ∀ jid, stateOf (step m (.deq paused now)).queue jid =
            (if jid = sel.job_id then (findState m.queue.jobs jid).map (fun _ => "running")
             else findState m.queue.jobs jid) := by
          intro jid
          show findState (dequeue_next m.queue paused now).2.1.jobs jid = _
          rw [hcase]
          show findState (markRunning m.queue.jobs sel.job_id now) jid = _
          rw [findState_markRunning]
        refine ⟨fun jid a b h1 h2 => ?_, fun jid b h1 h2 => ?_⟩
        · rw [hstates jid] at h2
          by_cases hjt : jid = sel.job_id
          · rw [if_pos hjt] at h2
            have h1f : findState m.queue.jobs jid = some a := h1
            rw [h1f] at h2
            simp only [Option.map_some', Option.some.injEq] at h2
            have hfind : m.queue.jobs.find? (fun k => k.job_id == sel.job_id) =
                some sel := find?_of_mem_nodup hnd hselq
            have h1g : findState m.queue.jobs sel.job_id = some sel.state := by
              unfold findState
              rw [hfind]
              rfl
            rw [hjt] at h1f
            rw [h1f] at h1g
            have ha : a = "queued" := by
              rw [Option.some.inj h1g, hstate]
            rw [ha, ← h2]
            exact .inr (.inl ⟨rfl, rfl⟩)
          · rw [if_neg hjt] at h2
            have h1f : findState m.queue.jobs jid = some a := h1
            rw [h1f] at h2
            exact (Option.some.inj h2) ▸ .inl rfl
        · rw [hstates jid] at h2
          have h1f : findState m.queue.jobs jid = none := h1
          by_cases hjt : jid = sel.job_id
          · rw [if_pos hjt, h1f] at h2
            exact absurd h2 (by simp)
          · rw [if_neg hjt, h1f] at h2
            exact absurd h2 (by simp)
  | comp jid0 success e now =>
      have hstates : ∀ jid, stateOf (step m (.comp jid0 success e now)).queue jid =
          (if jid = jid0 then
            (findState m.queue.jobs jid).map (fun _ => if success then "succeeded" else "failed")
           else findState m.queue.jobs jid) := by
        intro jid
        show findState (completeFirst m.queue.jobs jid0 success e now) jid = _
        rw [findState_completeFirst]
      refine ⟨fun jid a b h1 h2 => ?_, fun jid b h1 h2 => ?_⟩
      · rw [hstates jid] at h2
        by_cases hjt : jid = jid0
        · rw [if_pos hjt] at h2
          have h1f : findState m.queue.jobs jid = some a := h1
          rw [h1f] at h2
          simp only [Option.map_some', Option.some.injEq] at h2
          have hrun : a = "running" := by
            have hok2 : stateOf m.queue jid0 = none ∨
                stateOf m.queue jid0 = some "running" := hok
            rw [← hjt] at hok2
            rcases hok2 with hok2 | hok2
            · rw [h1] at hok2
              exact absurd hok2 (by simp)
            · rw [h1] at hok2
              exact Option.some.inj hok2
          rw [hrun, ← h2]
          refine .inr (.inr (.inl ⟨rfl, ?_⟩))
          cases success
          · exact .inr rfl
          · exact .inl rfl
        · rw [if_neg hjt] at h2
          have h1f : findState m.queue.jobs jid = some a := h1
          rw [h1f] at h2
          exact (Option.some.inj h2) ▸ .inl rfl
      · rw [hstates jid] at h2
        have h1f : findState m.queue.jobs jid = none := h1
        by_cases hjt : jid = jid0
        · rw [if_pos hjt, h1f] at h2
          exact absurd h2 (by simp)
        · rw [if_neg hjt, h1f] at h2
          exact absurd h2 (by simp)
  | cancel jid0 now =>
      have hstates : ∀ jid, stateOf (step m (.cancel jid0 now)).queue jid =
          (if jid = jid0 then
            (findState m.queue.jobs jid).map (fun a => if a = "queued" then "canceled" else a)
           else findState m.queue.jobs jid) := by
        intro jid
        show findState ((cancelFirst m.queue.jobs jid0 now).1) jid = _
        rw [findState_cancelFirst]
      refine ⟨fun jid a b h1 h2 => ?_, fun jid b h1 h2 => ?_⟩
      · rw [hstates jid] at h2
        by_cases hjt : jid = jid0
        · rw [if_pos hjt] at h2
          have h1f : findState m.queue.jobs jid = some a := h1
          rw [h1f] at h2
          simp only [Option.map_some', Option.some.injEq] at h2
          by_cases ha : a = "queued"
          · rw [ha] at h2 ⊢
            rw [if_pos rfl] at h2
            rw [← h2]
            exact .inr (.inr (.inr ⟨rfl, rfl⟩))
          · rw [if_neg ha] at h2
            exact h2 ▸ .inl rfl
        · rw [if_neg hjt] at h2
          have h1f : findState m.queue.jobs jid = some a := h1
          rw [h1f] at h2
          exact (Option.some.inj h2) ▸ .inl rfl
      · rw [hstates jid] at h2
        have h1f : findState m.queue.jobs jid = none := h1
        by_cases hjt : jid = jid0
        · rw [if_pos hjt, h1f] at h2
          exact absurd h2 (by simp)
        · rw [if_neg hjt, h1f] at h2
          exact absurd h2 (by simp)
  | cancelGrp gid now =>
      have hstates : ∀ jid, stateOf (step m (.cancelGrp gid now)).queue jid =
          (m.queue.jobs.find? (fun k => k.job_id == jid)).map
            (fun j => if j.group_id = some gid ∧ j.state = "queued" then "canceled"
                      else j.state) := by
        intro jid
        exact findState_cancelGroup m.queue gid now jid
      refine ⟨fun jid a b h1 h2 => ?_, fun jid b h1 h2 => ?_⟩
      · rw [hstates jid] at h2
        rcases hfind : m.queue.jobs.find? (fun k => k.job_id == jid) with _ | j
        · rw [hfind] at h2
          exact absurd h2 (by simp)
        · rw [hfind] at h2
          have h1f : findState m.queue.jobs jid = some a := h1
          unfold findState at h1f
          rw [hfind] at h1f
          simp only [Option.map_some', Option.some.injEq] at h1f h2
          by_cases hc : j.group_id = some gid ∧ j.state = "queued"
          · rw [if_pos hc] at h2
            rw [← h1f, hc.2, ← h2]
            exact .inr (.inr (.inr ⟨rfl, rfl⟩))
          · rw [if_neg hc] at h2
            rw [← h1f, ← h2]
            exact .inl rfl
      · rw [hstates jid] at h2
        have h1f : findState m.queue.jobs jid = none := h1
        unfold findState at h1f
        rcases hfind : m.queue.jobs.find? (fun k => k.job_id == jid) with _ | j
        · rw [hfind] at h2
          exact absurd h2 (by simp)
        · rw [hfind] at h1f
          exact absurd h1f (by simp)
  | retry gid now =>
      have hstates : ∀ jid, stateOf (step m (.retry gid now)).queue jid =
          (findState m.queue.jobs jid).or
            (findState (retryJobs m.queue.jobs gid m.counter now).1 jid) := by
        intro jid
        show findState (m.queue.jobs ++ (retryJobs m.queue.jobs gid m.counter now).1) jid = _
        rw [findState_append]
      refine ⟨fun jid a b h1 h2 => ?_, fun jid b h1 h2 => ?_⟩
      · rw [hstates jid] at h2
        have h1f : findState m.queue.jobs jid = some a := h1
        rw [h1f] at h2
        simp only [Option.or_some] at h2
        exact (Option.some.inj h2) ▸ .inl rfl
      · rw [hstates jid] at h2
        have h1f : findState m.queue.jobs jid = none := h1
        rw [h1f] at h2
        simp only [Option.none_or] at h2
        exact findState_retry_queued h2

/-! ### Trace-level inductions -/

theorem jobsWf_mgr0 : JobsWf mgr0 := by
  constructor
  · intro i hi
    simp [mgr0, Mgr.queue, QueueState.jobs] at hi
  · show ((([] : List Job)).map (fun j => j.job_id)).Nodup
    simp

theorem uniqueActive_mgr0 : UniqueActive mgr0.queue := by
  intro r
  show (([] : List Job)).countP (isActiveFor r) ≤ 1
  simp

theorem runOps_preserves :
    ∀ (ops : List Op) (m : Mgr), JobsWf m → UniqueActive m.queue →
      RetrySafeAlong m ops →
      JobsWf (runOps m ops) ∧ UniqueActive (runOps m ops).queue := by
  intro ops
  induction ops with
  | nil => intro m hwf hinv _; exact ⟨hwf, hinv⟩
  | cons op rest ih =>
      intro m hwf hinv hsafe
      obtain ⟨hsafe1, hsafe2⟩ := hsafe
      exact ih (step m op) (jobsWf_step m op hwf)
        (uniqueActive_step m op hwf hinv hsafe1) hsafe2

theorem stepsAllowed_run :
    ∀ (ops : List Op) (m : Mgr), JobsWf m →
      CompletesRunningAlong m ops → StepsAllowed m ops := by
  intro ops
  induction ops with
  | nil => intro m _ _; trivial
  | cons op rest ih =>
      intro m hwf hok
      obtain ⟨hok1, hok2⟩ := hok
      exact ⟨(step_allowed m op hwf hok1).1, (step_allowed m op hwf hok1).2,
        ih (step m op) (jobsWf_step m op hwf) hok2⟩

/-- C2 (amended): starting from the empty queue, every sequence of queue
operations keeps at most one queued-or-running job per `run_id`, provided
each `retry_failed` call is issued in a state where no failed job of the
group shares its run with an active job or a second failed job.  Without
that proviso the claim fails — see the counterexample theorem. -/
theorem at_most_one_active_job_per_run :
    ∀ (ops : List Op), RetrySafeAlong mgr0 ops →
      ∀ r, activeCount (runOps mgr0 ops).queue r ≤ 1 := by
  intro ops h r
  exact (runOps_preserves ops mgr0 jobsWf_mgr0 uniqueActive_mgr0 h).2 r

/-- Witness for the amended C2: the S4 scenario (one failure, one retry)
satisfies the proviso and ends with a single active job for `r`. -/
theorem at_most_one_active_job_per_run_witness :
    RetrySafeAlong mgr0 c2WitnessOps ∧
    activeCount (runOps mgr0 c2WitnessOps).queue "r" ≤ 1 :=
  ⟨by decide, at_most_one_active_job_per_run c2WitnessOps (by decide) "r"⟩

/-- C2 counterexample: enqueue `r`, dequeue it, fail it, and call
`retry_failed` twice; the code then holds two simultaneously queued jobs
for run `r`, violating the claimed invariant. -/
theorem retry_failed_duplicates_queued_run :
    activeCount (runOps mgr0 c2CexOps).queue "r" = 2 ∧
    ¬ (∀ r, activeCount (runOps mgr0 c2CexOps).queue r ≤ 1) := by
  constructor
  · rfl
  · intro h
    have h2 := h "r"
    rw [show activeCount (runOps mgr0 c2CexOps).queue "r" = 2 from rfl] at h2
    omega

/-- C5 (amended): starting from the empty queue, every operation moves every
job only along `queued → running → succeeded/failed` or `queued → canceled`
(or leaves it in place), and newly appearing jobs start `queued` — provided
`complete_job` is only invoked for running (or unknown) job ids, which is
how the daemon calls it.  Without the proviso the claim fails — see the
counterexample theorem. -/
theorem job_transitions_follow_lifecycle :
    ∀ (ops : List Op), CompletesRunningAlong mgr0 ops → StepsAllowed mgr0 ops :=
  fun ops h => stepsAllowed_run ops mgr0 jobsWf_mgr0 h

/-- Witness for the amended C5: enqueue, dequeue, complete-the-running-job
satisfies the proviso, so all transitions along it are allowed. -/
theorem job_transitions_follow_lifecycle_witness :
    CompletesRunningAlong mgr0 c5WitnessOps ∧ StepsAllowed mgr0 c5WitnessOps :=
  ⟨by decide, job_transitions_follow_lifecycle c5WitnessOps (by decide)⟩

/-- C5 counterexample: `complete_job` with `success = true` on a job that is
still `queued` moves it straight to `succeeded`, a transition outside the
claimed lifecycle. -/
theorem complete_job_succeeds_queued_job :
    c5CexM2 = step c5CexM1 (.comp "job_t1_0001" true none "t2") ∧
    stateOf c5CexM1.queue "job_t1_0001" = some "queued" ∧
    stateOf c5CexM2.queue "job_t1_0001" = some "succeeded" ∧
    ¬ allowedStep "queued" "succeeded" :=
  ⟨rfl, rfl, rfl, by decide⟩

/-! ### The aggregator: terminal status and best-run selection -/

theorem runVal_some {run : RunEntry} {v : ℚ} (h : runVal run = some v) :
    ∃ pm, run.primary_metric = some pm ∧ pm.value = some v := by
  unfold runVal at h
  rcases hpm : run.primary_metric with _ | pm
  · rw [hpm] at h
    exact Option.noConfusion h
  · rw [hpm] at h
    exact ⟨pm, rfl, h⟩

theorem bestStep_of_val_none (acc : Option ℚ × Option String × Option PrimaryMetric)
    (run : RunEntry) (h : runVal run = none) : bestStep acc run = acc := by
  rcases hpm : run.primary_metric with _ | pm
  · simp only [bestStep, hpm]
  · simp only [runVal, hpm, Option.some_bind] at h
    simp only [bestStep, hpm, h]

theorem bestStep_new_best (acc : Option ℚ × Option String × Option PrimaryMetric)
    (run : RunEntry) (pm : PrimaryMetric) (v : ℚ)
    (hpm : run.primary_metric = some pm) (hv : pm.value = some v)
    (hacc : acc.1 = none) :
    bestStep acc run = (some v, some run.run_id, some pm) := by
  simp only [bestStep, hpm, hv, hacc]

theorem bestStep_displace (acc : Option ℚ × Option String × Option PrimaryMetric)
    (run : RunEntry) (pm : PrimaryMetric) (v bv : ℚ)
    (hpm : run.primary_metric = some pm) (hv : pm.value = some v)
    (hacc : acc.1 = some bv) (hlt : bv < v) :
    bestStep acc run = (some v, some run.run_id, some pm) := by
  simp only [bestStep, hpm, hv, hacc]
  rw [if_pos hlt]

theorem bestStep_keep (acc : Option ℚ × Option String × Option PrimaryMetric)
    (run : RunEntry) (pm : PrimaryMetric) (v bv : ℚ)
    (hpm : run.primary_metric = some pm) (hv : pm.value = some v)
    (hacc : acc.1 = some bv) (hlt : ¬ bv < v) :
    bestStep acc run = acc := by
  simp only [bestStep, hpm, hv, hacc]
  rw [if_neg hlt]

theorem bestFold_append (l : List RunEntry) (r : RunEntry) :
    bestFold (l ++ [r]) = bestStep (bestFold l) r := by
  unfold bestFold
  rw [List.foldl_append]
  rfl

/-- Full characterisation of the best-run loop: either no run has a numeric
value (and the loop reports nothing), or the reported run is the first run
attaining the maximum value — everything before it is strictly below, and
everything after it is at most the maximum. -/
theorem bestFold_char (runs : List RunEntry) :
    ((bestFold runs).1 = none →
      (∀ r ∈ runs, runVal r = none) ∧
      (bestFold runs).2.1 = none ∧ (bestFold runs).2.2 = none) ∧
    (∀ v : ℚ, (bestFold runs).1 = some v →
      ∃ l1 rm l2, runs = l1 ++ rm :: l2 ∧ runVal rm = some v ∧
        (bestFold runs).2.1 = some rm.run_id ∧
        (bestFold runs).2.2 = rm.primary_metric ∧
        (∀ r1 ∈ l1, ∀ w, runVal r1 = some w → w < v) ∧
        (∀ r2 ∈ l2, ∀ w, runVal r2 = some w → w ≤ v)) := by
  induction runs using List.reverseRecOn with
  | nil =>
      constructor
      · intro _
        refine ⟨?_, rfl, rfl⟩
        intro r hr
        cases hr
      · intro v hv
        exact Option.noConfusion hv
  | append_singleton l r ih =>
      obtain ⟨ihn, ihs⟩ := ih
      rw [bestFold_append]
      rcases hacc : (bestFold l).1 with _ | bv
      · obtain ⟨hall, hid2, hpm2⟩ := ihn hacc
        rcases hrv : runVal r with _ | v0
        · rw [bestStep_of_val_none _ _ hrv]
          constructor
          · intro _
            refine ⟨?_, hid2, hpm2⟩
            intro x hx
            rcases List.mem_append.1 hx with hx | hx
            · exact hall x hx
            · rw [List.mem_singleton.1 hx]
              exact hrv
          · intro v hv
            rw [hacc] at hv
            exact Option.noConfusion hv
        · obtain ⟨pm, hpm, hv0⟩ := runVal_some hrv
          rw [bestStep_new_best _ _ pm v0 hpm hv0 hacc]
          constructor
          · intro h1
            exact Option.noConfusion h1
          · intro v hv
            have hv2 : v0 = v := Option.some.inj hv
            subst hv2
            refine ⟨l, r, [], by simp, hrv, rfl, hpm.symm, ?_, ?_⟩
            · intro r1 hr1 w1 hw1
              rw [hall r1 hr1] at hw1
              exact Option.noConfusion hw1
            · intro r2 hr2
              cases hr2
      · obtain ⟨l1, rm, l2, hdec, hrm, hid2, hpm2, hlt1, hle2⟩ := ihs bv hacc
        rcases hrv : runVal r with _ | w
        · rw [bestStep_of_val_none _ _ hrv]
          constructor
          · intro h1
            rw [hacc] at h1
            exact Option.noConfusion h1
          · intro v hv
            rw [hacc] at hv
            have hv2 : bv = v := Option.some.inj hv
            subst hv2
            refine ⟨l1, rm, l2 ++ [r], by rw [hdec]; simp, hrm, hid2, hpm2, hlt1, ?_⟩
            intro r2 hr2 w2 hw2
            rcases List.mem_append.1 hr2 with h | h
            · exact hle2 r2 h w2 hw2
            · rw [List.mem_singleton.1 h] at hw2
              rw [hrv] at hw2
              exact Option.noConfusion hw2
        · obtain ⟨pm, hpm, hw⟩ := runVal_some hrv
          by_cases hcmp : bv < w
          · rw [bestStep_displace _ _ pm w bv hpm hw hacc hcmp]
            constructor
            · intro h1
              exact Option.noConfusion h1
            · intro v hv
              have hv2 : w = v := Option.some.inj hv
              subst hv2
              refine ⟨l, r, [], by simp, hrv, rfl, hpm.symm, ?_, ?_⟩
              · intro r1 hr1 w1 hw1
                rw [hdec] at hr1
                rcases List.mem_append.1 hr1 with h | h
                · exact lt_trans (hlt1 r1 h w1 hw1) hcmp
                · rcases List.mem_cons.1 h with he | ht
                  · rw [he] at hw1
                    rw [hrm] at hw1
                    rw [Option.some.inj hw1] at hcmp
                    exact hcmp
                  · exact lt_of_le_of_lt (hle2 r1 ht w1 hw1) hcmp
              · intro r2 hr2
                cases hr2
          · rw [bestStep_keep _ _ pm w bv hpm hw hacc hcmp]
            constructor
            · intro h1
              rw [hacc] at h1
              exact Option.noConfusion h1
            · intro v hv
              rw [hacc] at hv
              have hv2 : bv = v := Option.some.inj hv
              subst hv2
              refine ⟨l1, rm, l2 ++ [r], by rw [hdec]; simp, hrm, hid2, hpm2, hlt1, ?_⟩
              intro r2 hr2 w2 hw2
              rcases List.mem_append.1 hr2 with h | h
              · exact hle2 r2 h w2 hw2
              · rw [List.mem_singleton.1 h] at hw2
                rw [hrv] at hw2
                rw [(Option.some.inj hw2).symm]
                exact le_of_not_lt hcmp

theorem find?_first_sat (p : RunEntry → Bool) :
    ∀ (l1 : List RunEntry) (rm : RunEntry) (l2 : List RunEntry),
      (∀ x ∈ l1, p x = false) → p rm = true →
      (l1 ++ rm :: l2).find? p = some rm := by
  intro l1
  induction l1 with
  | nil =>
      intro rm l2 _ hp
      exact List.find?_cons_of_pos l2 hp
  | cons a l ih =>
      intro rm l2 hfalse hp
      have ha : p a = false := hfalse a (List.mem_cons_self a l)
      rw [List.cons_append]
      rw [List.find?_cons_of_neg _ (by rw [ha]; exact Bool.false_ne_true)]
      exact ih rm l2 (fun x hx => hfalse x (List.mem_cons_of_mem a hx)) hp

/-- The iterative best-run loop agrees with the declarative description:
its reported run id and metric are those of the first run attaining the
greatest numeric metric value, and are `None` when no run has one. -/
theorem bestFold_eq_spec (runs : List RunEntry) :
    (bestFold runs).2.1 = (specBestRun runs).map (fun r => r.run_id) ∧
    (bestFold runs).2.2 = (specBestRun runs).bind (fun r => r.primary_metric) := by
  obtain ⟨hnone, hsome⟩ := bestFold_char runs
  rcases hv : (bestFold runs).1 with _ | v
  · obtain ⟨hall, hid, hpm⟩ := hnone hv
    have hspec : specBestRun runs = none := by
      unfold specBestRun
      rw [List.find?_eq_none]
      intro r hr
      simp [isGreatestIn, hall r hr]
    rw [hspec, hid, hpm]
    exact ⟨rfl, rfl⟩
  · obtain ⟨l1, rm, l2, hdec, hrm, hid, hpm, hlt1, hle2⟩ := hsome v hv
    have hspec : specBestRun runs = some rm := by
      unfold specBestRun
      rw [hdec]
      apply find?_first_sat
      · intro x hx
        rcases hxv : runVal x with _ | w
        · simp [isGreatestIn, hxv]
        · have hwlt : w < v := hlt1 x hx w hxv
          have hmem2 : rm ∈ l1 ++ rm :: l2 :=
            List.mem_append_right l1 (List.mem_cons_self rm l2)
          simp only [isGreatestIn, hxv]
          apply Bool.eq_false_iff.2
          intro hall
          have h2 := List.all_eq_true.1 hall rm hmem2
          rw [hrm] at h2
          simp only [decide_eq_true_eq] at h2
          exact absurd h2 (not_le.2 hwlt)
      · simp only [isGreatestIn, hrm]
        apply List.all_eq_true.2
        intro r2 hr2
        rcases hx2 : runVal r2 with _ | w
        · rfl
        · show decide (w ≤ v) = true
          simp only [decide_eq_true_eq]
          rcases List.mem_append.1 hr2 with h | h
          · exact le_of_lt (hlt1 r2 h w hx2)
          · rcases List.mem_cons.1 h with he | ht
            · rw [he] at hx2
              rw [hrm] at hx2
              exact le_of_eq (Option.some.inj hx2).symm
            · exact hle2 r2 ht w hx2
    rw [hspec, hid, hpm]
    exact ⟨rfl, rfl⟩

/-- C7: when, after the aggregator processes a completion, no run of the
group remains pending, queued or running, the group status becomes
`failed` exactly when the recomputed failed count is positive and
`completed` otherwise, and `execution.finished_at` is set to the current
time; and on the S5 scenario (two runs, one succeeded then one failed) the
final document has status `failed`, `summary.succeeded = 1`,
`summary.failed = 1` and `finished_at` set. -/
theorem group_terminal_status :
    (∀ (g : GroupDoc) (rid : String) (success : Bool)
        (res : Option (Option PrimaryMetric)) (now : String),
      (updateGroupOnCompletion g rid success res now).runs.countP
          (fun r => isPendingStatus r.status) = 0 →
      (updateGroupOnCompletion g rid success res now).status =
          (if 0 < (updateGroupOnCompletion g rid success res now).summary.failed
           then "failed" else "completed") ∧
      (updateGroupOnCompletion g rid success res now).execution.finished_at = some now) ∧
    (s5g2.status = "failed" ∧ s5g2.summary.succeeded = 1 ∧
     s5g2.summary.failed = 1 ∧ s5g2.execution.finished_at = some "n2") := by
  constructor
  · intro g rid success res now h
    have h2 : (updateRunStatus g.runs rid success res).countP
        (fun r => isPendingStatus r.status) = 0 := h
    constructor
    · show (if (updateRunStatus g.runs rid success res).countP
            (fun r => isPendingStatus r.status) = 0 then
          (if 0 < (updateRunStatus g.runs rid success res).countP
              (fun r => r.status == "failed") then "failed" else "completed")
        else g.status) = _
      rw [if_pos h2]
      rfl
    · show (if (updateRunStatus g.runs rid success res).countP
            (fun r => isPendingStatus r.status) = 0 then some now
        else g.execution.finished_at) = some now
      rw [if_pos h2]
  · exact ⟨rfl, rfl, rfl, rfl⟩

/-- Witness for C7: the concrete S5 second completion satisfies the
no-pending hypothesis and the conclusion. -/
theorem group_terminal_status_witness :
    (updateGroupOnCompletion s5g1 "r2" false none "n2").runs.countP
        (fun r => isPendingStatus r.status) = 0 ∧
    ((updateGroupOnCompletion s5g1 "r2" false none "n2").status =
        (if 0 < (updateGroupOnCompletion s5g1 "r2" false none "n2").summary.failed
         then "failed" else "completed") ∧
     (updateGroupOnCompletion s5g1 "r2" false none "n2").execution.finished_at =
        some "n2") :=
  ⟨by rfl, group_terminal_status.1 s5g1 "r2" false none "n2" (by rfl)⟩

/-- C8: after any aggregator call, `summary.best_run_id` and
`summary.best_primary_metric` are those of the first run (iteration order)
holding the greatest numeric `primary_metric.value` among the runs that
have one (`None` when no run has one); and on the S6 scenario (values
0.80, 0.92, 0.85 completing in order) the best run is the middle one with
metric value 0.92. -/
theorem best_run_selection :
    (∀ (g : GroupDoc) (rid : String) (success : Bool)
        (res : Option (Option PrimaryMetric)) (now : String),
      (updateGroupOnCompletion g rid success res now).summary.best_run_id =
        (specBestRun (updateGroupOnCompletion g rid success res now).runs).map
          (fun r => r.run_id) ∧
      (updateGroupOnCompletion g rid success res now).summary.best_primary_metric =
        (specBestRun (updateGroupOnCompletion g rid success res now).runs).bind
          (fun r => r.primary_metric)) ∧
    (s6g3.summary.best_run_id = some "r2" ∧
     s6g3.summary.best_primary_metric = some (s6pm q092)) := by
  constructor
  · intro g rid success res now
    exact bestFold_eq_spec (updateRunStatus g.runs rid success res)
  · exact ⟨rfl, rfl⟩

/-! ### C9: heap lemmas -/

theorem find?_cons_eq {α : Type} (p : α → Bool) (e : α) (l : List α) :
    List.find? p (e :: l) = if p e then some e else List.find? p l := by
  rcases he : p e with _ | _
  · simp [List.find?, he]
  · simp [List.find?, he]

theorem Heap.get_set (h : Heap) (a : Nat) (o : List (String × HVal)) (b : Nat) :
    (Heap.set h a o).get b = if a = b then some o else h.get b := by
  by_cases hab : a = b
  · subst hab
    simp [Heap.set, Heap.get, find?_cons_eq]
  · simp [Heap.set, Heap.get, find?_cons_eq, hab]

theorem Heap.get_push (n c : Nat) (o : List (String × HVal))
    (mem : List (Nat × List (String × HVal))) (b : Nat) :
    Heap.get ⟨n, (c, o) :: mem⟩ b = if c = b then some o else Heap.get ⟨n, mem⟩ b := by
  by_cases hcb : c = b
  · subst hcb
    simp [Heap.get, find?_cons_eq]
  · simp [Heap.get, find?_cons_eq, hcb]

theorem hvalBelow_mono {m n : Nat} (hmn : m ≤ n) (w : HVal)
    (h : hvalBelow m w = true) : hvalBelow n w = true := by
  cases w with
  | ref b =>
      simp only [hvalBelow, decide_eq_true_eq] at h ⊢
      omega
  | val v => rfl

theorem hvalGE_anti {m n : Nat} (hmn : m ≤ n) (w : HVal)
    (h : hvalGE n w = true) : hvalGE m w = true := by
  cases w with
  | ref b =>
      simp only [hvalGE, decide_eq_true_eq] at h ⊢
      omega
  | val v => rfl

theorem all_mono {α : Type} (p q : α → Bool) (l : List α)
    (hpq : ∀ x ∈ l, p x = true → q x = true) (hl : l.all p = true) :
    l.all q = true := by
  apply List.all_eq_true.2
  intro x hx
  exact hpq x hx (List.all_eq_true.1 hl x hx)

theorem closed_of_wfb (h : Heap) (hw : Heap.wfb h = true) : Heap.Closed h := by
  intro a o hget
  unfold Heap.get at hget
  unfold Heap.wfb at hw
  rcases hf : h.mem.find? (fun e => e.1 == a) with _ | e
  · rw [hf] at hget
    exact Option.noConfusion hget
  · rw [hf] at hget
    have he : e ∈ h.mem := List.mem_of_find?_eq_some hf
    have hea : e.1 = a := by
      have := List.find?_some hf
      simpa using this
    have hwe := List.all_eq_true.1 hw e he
    rw [Bool.and_eq_true] at hwe
    have ho : e.2 = o := Option.some.inj hget
    constructor
    · rw [← hea]
      simpa using hwe.1
    · rw [← ho]
      exact hwe.2

theorem readEntries_congr (f g : HVal → Option JsonV) :
    ∀ l : List (String × HVal), (∀ kv ∈ l, f kv.2 = g kv.2) →
      readEntries f l = readEntries g l := by
  intro l
  induction l with
  | nil => intro _; rfl
  | cons kv rest ih =>
      intro hfg
      unfold readEntries
      rw [hfg kv (List.mem_cons_self kv rest)]
      rw [ih (fun x hx => hfg x (List.mem_cons_of_mem kv hx))]

/-- Reading below `n` is insensitive to heap changes at or above `n`,
provided the region below `n` is closed under references. -/
theorem readVal_agree (n : Nat) :
    ∀ (fuel : Nat) (h h2 : Heap) (v : HVal),
      (∀ a, a < n → Heap.get h2 a = Heap.get h a) →
      (∀ a o, Heap.get h a = some o →
        (o.all (fun kv => hvalBelow n kv.2)) = true) →
      hvalBelow n v = true →
      readVal fuel h2 v = readVal fuel h v := by
  intro fuel
  induction fuel with
  | zero =>
      intro h h2 v _ _ _
      rcases v with a | w
      · rfl
      · rfl
  | succ fuel ih =>
      intro h h2 v hag hcl hv
      rcases v with a | w
      · have ha : a < n := by
          simpa [hvalBelow] using hv
        show readVal (fuel+1) h2 (.ref a) = readVal (fuel+1) h (.ref a)
        simp only [readVal]
        rw [hag a ha]
        rcases hget : Heap.get h a with _ | entries
        · rfl
        · have hall := hcl a entries hget
          show Option.map JsonV.obj (readEntries (fun w => readVal fuel h2 w) entries) =
              Option.map JsonV.obj (readEntries (fun w => readVal fuel h w) entries)
          rw [readEntries_congr (fun w => readVal fuel h2 w)
              (fun w => readVal fuel h w) entries ?_]
          intro kv hkv
          exact ih h h2 kv.2 hag hcl (List.all_eq_true.1 hall kv hkv)
      · rfl

theorem closed_of_extend (h h2 : Heap) (hle : h.next ≤ h2.next)
    (hext : ∀ a o, h2.get a = some o →
      h.get a = some o ∨
      (h.next ≤ a ∧ a < h2.next ∧
        (o.all (fun kv => hvalBelow h2.next kv.2 && hvalGE h.next kv.2)) = true))
    (hcl : Heap.Closed h) : Heap.Closed h2 := by
  intro a o hget
  rcases hext a o hget with hold | hnew
  · obtain ⟨ha1, ha2⟩ := hcl a o hold
    refine ⟨by omega, ?_⟩
    apply all_mono _ _ _ ?_ ha2
    intro kv _ hkv
    exact hvalBelow_mono hle _ hkv
  · obtain ⟨g1, g2, g3⟩ := hnew
    refine ⟨g2, ?_⟩
    apply all_mono _ _ _ ?_ g3
    intro kv _ hkv
    rw [Bool.and_eq_true] at hkv
    exact hkv.1

theorem readVal_val (fuel : Nat) (h : Heap) (v : JsonV) :
    readVal fuel h (HVal.val v) = some v := by
  cases fuel with
  | zero => rfl
  | succ fuel => rfl

theorem allocOk_val (fuel : Nat) (v : JsonV) (h : Heap) (w : HVal) (h2 : Heap)
    (heq : (some (HVal.val v, h) : Option (HVal × Heap)) = some (w, h2)) :
    AllocOk fuel v h w h2 := by
  have hp := Option.some.inj heq
  have hw : HVal.val v = w := congrArg Prod.fst hp
  have hh : h = h2 := congrArg Prod.snd hp
  subst hw
  subst hh
  exact ⟨le_refl _, fun a _ => rfl, ⟨rfl, rfl⟩, fun a o hg => Or.inl hg,
    fun _ => readVal_val _ _ _⟩

/-- The allocation contract holds for every fuel, both for single values
and for field lists. -/
theorem allocVal_spec :
    ∀ fuel : Nat,
      (∀ v h w h2, allocVal fuel v h = some (w, h2) → AllocOk fuel v h w h2) ∧
      (∀ l h ws h2,
        allocEntries (fun v hh => allocVal fuel v hh) l h = some (ws, h2) →
        EntriesOk fuel l h ws h2) := by
  intro fuel
  induction fuel with
  | zero =>
      constructor
      · intro v h w h2 halloc
        exact Option.noConfusion halloc
      · intro l h ws h2 hent
        cases l with
        | nil =>
            have hp := Option.some.inj hent
            have hws : ([] : List (String × HVal)) = ws := congrArg Prod.fst hp
            have hh : h = h2 := congrArg Prod.snd hp
            subst hws
            subst hh
            exact ⟨le_refl _, fun a _ => rfl, rfl, fun a o hg => Or.inl hg, fun _ => rfl⟩
        | cons kv rest =>
            exact Option.noConfusion hent
  | succ fuel ih =>
      obtain ⟨ihA, ihE⟩ := ih
      have hA : ∀ v h w h2, allocVal (fuel+1) v h = some (w, h2) →
          AllocOk (fuel+1) v h w h2 := by
        intro v h w h2 halloc
        cases v with
        | null => exact allocOk_val _ _ _ _ _ halloc
        | bool b => exact allocOk_val _ _ _ _ _ halloc
        | num q => exact allocOk_val _ _ _ _ _ halloc
        | str s => exact allocOk_val _ _ _ _ _ halloc
        | arr es => exact allocOk_val _ _ _ _ _ halloc
        | obj fs =>
            simp only [allocVal] at halloc
            rcases hE : allocEntries (fun v hh => allocVal fuel v hh) fs h with _ | ⟨ws0, hm⟩
            · rw [hE] at halloc
              exact Option.noConfusion halloc
            · rw [hE] at halloc
              have halloc2 : (some (HVal.ref hm.next,
                  (⟨hm.next + 1, (hm.next, ws0) :: hm.mem⟩ : Heap)) : Option (HVal × Heap)) =
                  some (w, h2) := halloc
              have hp := Option.some.inj halloc2
              have hw : HVal.ref hm.next = w := congrArg Prod.fst hp
              have hh : (⟨hm.next + 1, (hm.next, ws0) :: hm.mem⟩ : Heap) = h2 :=
                congrArg Prod.snd hp
              subst hw
              subst hh
              obtain ⟨e1, e2, e3, e4, e5⟩ := ihE fs h ws0 hm hE
              have hclm : Heap.Closed hm → True := fun _ => trivial
              refine ⟨Nat.le_trans e1 (Nat.le_succ _), ?_, ⟨?_, ?_⟩, ?_, ?_⟩
              · intro a ha
                show Heap.get ⟨hm.next + 1, (hm.next, ws0) :: hm.mem⟩ a = Heap.get h a
                rw [Heap.get_push]
                rw [if_neg (by omega)]
                exact e2 a ha
              · simp [hvalBelow]
              · simp only [hvalGE, decide_eq_true_eq]
                exact e1
              · intro a o hget
                rw [Heap.get_push] at hget
                by_cases hna : hm.next = a
                · rw [if_pos hna] at hget
                  right
                  have ho : ws0 = o := Option.some.inj hget
                  subst ho
                  have hlt : a < hm.next + 1 := by omega
                  refine ⟨by omega, hlt, ?_⟩
                  apply all_mono _ _ _ ?_ e3
                  intro kv _ hkv2
                  rw [Bool.and_eq_true] at hkv2 ⊢
                  exact ⟨hvalBelow_mono (Nat.le_succ _) _ hkv2.1, hkv2.2⟩
                · rw [if_neg hna] at hget
                  have hget2 : Heap.get hm a = some o := hget
                  rcases e4 a o hget2 with hold | hnew
                  · exact Or.inl hold
                  · right
                    obtain ⟨g1, g2, g3⟩ := hnew
                    have hlt : a < hm.next + 1 := by omega
                    refine ⟨g1, hlt, ?_⟩
                    apply all_mono _ _ _ ?_ g3
                    intro kv _ hkv2
                    rw [Bool.and_eq_true] at hkv2 ⊢
                    exact ⟨hvalBelow_mono (Nat.le_succ _) _ hkv2.1, hkv2.2⟩
              · intro hcl
                have hclosedm : Heap.Closed hm := closed_of_extend h hm e1 e4 hcl
                have hrd := e5 hcl
                show readVal (fuel+1) ⟨hm.next + 1, (hm.next, ws0) :: hm.mem⟩
                    (.ref hm.next) = some (.obj fs)
                simp only [readVal]
                rw [Heap.get_push]
                rw [if_pos rfl]
                show (readEntries
                    (fun u => readVal fuel ⟨hm.next + 1, (hm.next, ws0) :: hm.mem⟩ u)
                    ws0).map JsonV.obj = some (.obj fs)
                have hagree : ∀ b, b < hm.next →
                    Heap.get ⟨hm.next + 1, (hm.next, ws0) :: hm.mem⟩ b = Heap.get hm b := by
                  intro b hb
                  rw [Heap.get_push]
                  rw [if_neg (by omega)]
                  rfl
                rw [readEntries_congr
                    (fun u => readVal fuel ⟨hm.next + 1, (hm.next, ws0) :: hm.mem⟩ u)
                    (fun u => readVal fuel hm u) ws0 ?_]
                · rw [hrd]
                  rfl
                · intro kv hkv
                  apply readVal_agree hm.next fuel hm _ kv.2 hagree
                  · intro b ob hb
                    exact (hclosedm b ob hb).2
                  · have := List.all_eq_true.1 e3 kv hkv
                    rw [Bool.and_eq_true] at this
                    exact this.1
      refine ⟨hA, ?_⟩
      intro l
      induction l with
      | nil =>
          intro h ws h2 hent
          have hp := Option.some.inj hent
          have hws : ([] : List (String × HVal)) = ws := congrArg Prod.fst hp
          have hh : h = h2 := congrArg Prod.snd hp
          subst hws
          subst hh
          exact ⟨le_refl _, fun a _ => rfl, rfl, fun a o hg => Or.inl hg, fun _ => rfl⟩
      | cons kv rest ihl =>
          intro h ws h2 hent
          simp only [allocEntries] at hent
          rcases hA1 : allocVal (fuel+1) kv.2 h with _ | ⟨w1, hm1⟩
          · rw [hA1] at hent
            exact Option.noConfusion hent
          · rw [hA1] at hent
            have hent3 : (match allocEntries (fun v hh => allocVal (fuel+1) v hh) rest hm1 with
                | none => none
                | some (ws2, h3) => some ((kv.1, w1) :: ws2, h3)) = some (ws, h2) := hent
            rcases hE2 : allocEntries (fun v hh => allocVal (fuel+1) v hh) rest hm1
                with _ | ⟨ws2, hm2⟩
            · rw [hE2] at hent3
              exact Option.noConfusion hent3
            · rw [hE2] at hent3
              have hent2 : (some ((kv.1, w1) :: ws2, hm2) :
                  Option (List (String × HVal) × Heap)) = some (ws, h2) := hent3
              have hp := Option.some.inj hent2
              have hws : (kv.1, w1) :: ws2 = ws := congrArg Prod.fst hp
              have hh : hm2 = h2 := congrArg Prod.snd hp
              subst hws
              subst hh
              obtain ⟨a1, a2, ⟨a3b, a3g⟩, a4, a5⟩ := hA kv.2 h w1 hm1 hA1
              obtain ⟨b1, b2, b3, b4, b5⟩ := ihl hm1 ws2 hm2 hE2
              refine ⟨Nat.le_trans a1 b1, ?_, ?_, ?_, ?_⟩
              · intro a ha
                rw [b2 a (by omega)]
                exact a2 a ha
              · apply List.all_eq_true.2
                intro x hx
                rcases List.mem_cons.1 hx with hx1 | hx2
                · rw [hx1]
                  rw [Bool.and_eq_true]
                  exact ⟨hvalBelow_mono b1 _ a3b, a3g⟩
                · have := List.all_eq_true.1 b3 x hx2
                  rw [Bool.and_eq_true] at this ⊢
                  exact ⟨this.1, hvalGE_anti a1 _ this.2⟩
              · intro a o hget
                rcases b4 a o hget with hold1 | hnew1
                · rcases a4 a o hold1 with hold2 | hnew2
                  · exact Or.inl hold2
                  · right
                    obtain ⟨g1, g2, g3⟩ := hnew2
                    refine ⟨g1, by omega, ?_⟩
                    apply all_mono _ _ _ ?_ g3
                    intro x _ hx
                    rw [Bool.and_eq_true] at hx ⊢
                    exact ⟨hvalBelow_mono b1 _ hx.1, hx.2⟩
                · right
                  obtain ⟨g1, g2, g3⟩ := hnew1
                  refine ⟨by omega, g2, ?_⟩
                  apply all_mono _ _ _ ?_ g3
                  intro x _ hx
                  rw [Bool.and_eq_true] at hx ⊢
                  exact ⟨hx.1, hvalGE_anti a1 _ hx.2⟩
              · intro hcl
                have hclm1 : Heap.Closed hm1 := closed_of_extend h hm1 a1 a4 hcl
                have hrd1 := a5 hcl
                have hrd2 := b5 hclm1
                show (match readVal (fuel+1) hm2 w1 with
                      | none => none
                      | some t =>
                          match readEntries (fun u => readVal (fuel+1) hm2 u) ws2 with
                          | none => none
                          | some ts => some ((kv.1, t) :: ts)) = some (kv :: rest)
                have hag : readVal (fuel+1) hm2 w1 = readVal (fuel+1) hm1 w1 :=
                  readVal_agree hm1.next (fuel+1) hm1 hm2 w1 b2
                    (fun b ob hb => (hclm1 b ob hb).2) a3b
                rw [hag, hrd1, hrd2]

theorem filter_all {α : Type} (p q : α → Bool) (l : List α)
    (hl : l.all p = true) : (l.filter q).all p = true := by
  apply List.all_eq_true.2
  intro x hx
  exact List.all_eq_true.1 hl x (List.mem_of_mem_filter hx)

theorem setEntry_all (pred : HVal → Bool) (entries : List (String × HVal))
    (k : String) (w : HVal)
    (he : entries.all (fun kv => pred kv.2) = true) (hw : pred w = true) :
    (setEntry entries k w).all (fun kv => pred kv.2) = true := by
  unfold setEntry
  by_cases hmem : entries.any (fun kv => kv.1 == k) = true
  · rw [if_pos hmem]
    apply List.all_eq_true.2
    intro x hx
    obtain ⟨kv0, hkv0, hmap⟩ := List.mem_map.1 hx
    by_cases hk : (kv0.1 == k) = true
    · rw [if_pos hk] at hmap
      rw [← hmap]
      exact hw
    · rw [if_neg hk] at hmap
      rw [← hmap]
      exact List.all_eq_true.1 he kv0 hkv0
  · rw [if_neg hmem]
    rw [List.all_append]
    rw [Bool.and_eq_true]
    exact ⟨he, by simpa using hw⟩

/-- The navigation loop stays inside the copy region: it never changes an
address below `n0`, keeps the heap closed and region-closed, and lands on
a region address. -/
theorem walkParts_spec (n0 : Nat) :
    ∀ (parts : List String) (h : Heap) (a p : Nat) (h2 : Heap),
      walkParts parts h a = some (p, h2) →
      n0 ≤ h.next → n0 ≤ a → Heap.Closed h → Heap.HighRegion h n0 →
      (n0 ≤ h2.next ∧ h.next ≤ h2.next ∧
       (∀ b, b < n0 → h2.get b = h.get b) ∧
       n0 ≤ p ∧ Heap.Closed h2 ∧ Heap.HighRegion h2 n0) := by
  intro parts
  induction parts with
  | nil =>
      intro h a p h2 hw hn ha hcl hhr
      have hp := Option.some.inj hw
      have hp1 : a = p := congrArg Prod.fst hp
      have hp2 : h = h2 := congrArg Prod.snd hp
      subst hp1
      subst hp2
      exact ⟨hn, le_refl _, fun b _ => rfl, ha, hcl, hhr⟩
  | cons part rest ih =>
      intro h a p h2 hw hn ha hcl hhr
      simp only [walkParts] at hw
      rcases hget : Heap.get h a with _ | entries
      · rw [hget] at hw
        exact Option.noConfusion hw
      · rw [hget] at hw
        have hw2 : (match entries.find? (fun kv => kv.1 == part) with
            | some kv =>
                match kv.2 with
                | HVal.ref b => walkParts rest h b
                | HVal.val _ => none
            | none =>
                walkParts rest
                  (Heap.set ⟨h.next + 1, (h.next, []) :: h.mem⟩ a
                    (entries ++ [(part, HVal.ref h.next)]))
                  h.next) = some (p, h2) := hw
        rcases hf : entries.find? (fun kv => kv.1 == part) with _ | kv
        · rw [hf] at hw2
          obtain ⟨hplt, hpall⟩ := hcl a entries hget
          have hacl : Heap.Closed (Heap.set ⟨h.next + 1, (h.next, []) :: h.mem⟩ a
              (entries ++ [(part, HVal.ref h.next)])) := by
            intro c o hgetc
            rw [Heap.get_set] at hgetc
            by_cases hca : a = c
            · rw [if_pos hca] at hgetc
              have ho := Option.some.inj hgetc
              subst ho
              constructor
              · show c < h.next + 1
                omega
              · rw [List.all_append]
                rw [Bool.and_eq_true]
                constructor
                · apply all_mono _ _ _ ?_ hpall
                  intro x _ hx
                  exact hvalBelow_mono (Nat.le_succ _) _ hx
                · have hx : hvalBelow (h.next + 1) (HVal.ref h.next) = true := by
                    simp [hvalBelow]
                  simpa using hx
            · rw [if_neg hca] at hgetc
              rw [Heap.get_push] at hgetc
              by_cases hnc : h.next = c
              · rw [if_pos hnc] at hgetc
                have ho := Option.some.inj hgetc
                subst ho
                constructor
                · show c < h.next + 1
                  omega
                · rfl
              · rw [if_neg hnc] at hgetc
                have hgetc2 : Heap.get h c = some o := hgetc
                obtain ⟨hc1, hc2⟩ := hcl c o hgetc2
                constructor
                · show c < h.next + 1
                  omega
                · apply all_mono _ _ _ ?_ hc2
                  intro x _ hx
                  exact hvalBelow_mono (Nat.le_succ _) _ hx
          have hahr : Heap.HighRegion (Heap.set ⟨h.next + 1, (h.next, []) :: h.mem⟩ a
              (entries ++ [(part, HVal.ref h.next)])) n0 := by
            intro c o hc hgetc
            rw [Heap.get_set] at hgetc
            by_cases hca : a = c
            · rw [if_pos hca] at hgetc
              have ho := Option.some.inj hgetc
              subst ho
              rw [List.all_append]
              rw [Bool.and_eq_true]
              constructor
              · exact hhr a entries ha hget
              · have : hvalGE n0 (HVal.ref h.next) = true := by
                  simp only [hvalGE, decide_eq_true_eq]
                  omega
                simpa using this
            · rw [if_neg hca] at hgetc
              rw [Heap.get_push] at hgetc
              by_cases hnc : h.next = c
              · rw [if_pos hnc] at hgetc
                have ho := Option.some.inj hgetc
                subst ho
                rfl
              · rw [if_neg hnc] at hgetc
                have hgetc2 : Heap.get h c = some o := hgetc
                exact hhr c o hc hgetc2
          obtain ⟨r1, r2, r3, r4, r5, r6⟩ := ih _ h.next p h2 hw2
            (show n0 ≤ h.next + 1 by omega) (by omega) hacl hahr
          have hr2 : h.next + 1 ≤ h2.next := r2
          refine ⟨r1, by omega, ?_, r4, r5, r6⟩
          intro b hb
          rw [r3 b hb]
          rw [Heap.get_set]
          rw [if_neg (by omega)]
          rw [Heap.get_push]
          rw [if_neg (by omega)]
          rfl
        · rw [hf] at hw2
          have hw3 : (match kv.2 with
              | HVal.ref b => walkParts rest h b
              | HVal.val _ => none) = some (p, h2) := hw2
          rcases hkv2 : kv.2 with b | wv
          · rw [hkv2] at hw3
            have hkvmem : kv ∈ entries := List.mem_of_find?_eq_some hf
            have hble : n0 ≤ b := by
              have hallge := hhr a entries ha hget
              have hx := List.all_eq_true.1 hallge kv hkvmem
              rw [hkv2] at hx
              simpa [hvalGE] using hx
            exact ih h b p h2 hw3 hn hble hcl hhr
          · rw [hkv2] at hw3
            exact Option.noConfusion hw3

/-- The assignment arm of one override step. -/
theorem setPath_assign_ok (n0 fuel : Nat) (hm : Heap) (p : Nat) (k : String)
    (v : JsonV) (entries : List (String × HVal)) (h2 : Heap)
    (hgm : Heap.get hm p = some entries)
    (has : (match allocVal fuel v hm with
            | none => none
            | some q => some (Heap.set q.2 p (setEntry entries k q.1))) = some h2)
    (hn : n0 ≤ hm.next) (hp : n0 ≤ p)
    (hcl : Heap.Closed hm) (hhr : Heap.HighRegion hm n0) :
    (n0 ≤ h2.next ∧ (∀ b, b < n0 → h2.get b = hm.get b) ∧
     Heap.Closed h2 ∧ Heap.HighRegion h2 n0) := by
  rcases hav : allocVal fuel v hm with _ | ⟨w1, hq⟩
  · rw [hav] at has
    exact Option.noConfusion has
  · rw [hav] at has
    have hset : Heap.set hq p (setEntry entries k w1) = h2 := Option.some.inj has
    subst hset
    obtain ⟨a1, a2, ⟨a3b, a3g⟩, a4, _⟩ := (allocVal_spec fuel).1 v hm w1 hq hav
    have hclq : Heap.Closed hq := closed_of_extend hm hq a1 a4 hcl
    have hhrq : Heap.HighRegion hq n0 := by
      intro c o hc hgetc
      rcases a4 c o hgetc with hold | hnew
      · exact hhr c o hc hold
      · obtain ⟨g1, g2, g3⟩ := hnew
        apply all_mono _ _ _ ?_ g3
        intro kv _ hkv
        rw [Bool.and_eq_true] at hkv
        exact hvalGE_anti (by omega) _ hkv.2
    obtain ⟨hplt, hpall⟩ := hcl p entries hgm
    refine ⟨?_, ?_, ?_, ?_⟩
    · show n0 ≤ hq.next
      omega
    · intro b hb
      rw [Heap.get_set]
      rw [if_neg (by omega)]
      exact a2 b (by omega)
    · intro c o hgetc
      rw [Heap.get_set] at hgetc
      by_cases hpc : p = c
      · rw [if_pos hpc] at hgetc
        have ho := Option.some.inj hgetc
        subst ho
        constructor
        · show c < hq.next
          omega
        · apply setEntry_all
          · apply all_mono _ _ _ ?_ hpall
            intro kv _ hkv
            exact hvalBelow_mono a1 _ hkv
          · exact a3b
      · rw [if_neg hpc] at hgetc
        exact hclq c o hgetc
    · intro c o hc hgetc
      rw [Heap.get_set] at hgetc
      by_cases hpc : p = c
      · rw [if_pos hpc] at hgetc
        have ho := Option.some.inj hgetc
        subst ho
        apply setEntry_all
        · exact hhr p entries hp hgm
        · exact hvalGE_anti hn _ a3g
      · rw [if_neg hpc] at hgetc
        exact hhrq c o hc hgetc

/-- One override step preserves the region structure and never changes an
address below `n0`. -/
theorem setPath_spec (n0 fuel : Nat) (h : Heap) (root : Nat) (path : String)
    (v : JsonV) (h2 : Heap) :
    setPath fuel h root path v = some h2 →
    n0 ≤ h.next → n0 ≤ root → Heap.Closed h → Heap.HighRegion h n0 →
    (n0 ≤ h2.next ∧ (∀ b, b < n0 → h2.get b = h.get b) ∧
     Heap.Closed h2 ∧ Heap.HighRegion h2 n0) := by
  intro hsp hn hr hcl hhr
  unfold setPath at hsp
  rcases hwp : walkParts (splitDot path).dropLast h root with _ | ⟨p, hm⟩
  · rw [hwp] at hsp
    exact Option.noConfusion hsp
  · rw [hwp] at hsp
    obtain ⟨w1, w2, w3, w4, w5, w6⟩ := walkParts_spec n0 _ h root p hm hwp hn hr hcl hhr
    have hcompose : (n0 ≤ h2.next ∧ (∀ b, b < n0 → h2.get b = hm.get b) ∧
        Heap.Closed h2 ∧ Heap.HighRegion h2 n0) →
        (n0 ≤ h2.next ∧ (∀ b, b < n0 → h2.get b = h.get b) ∧
         Heap.Closed h2 ∧ Heap.HighRegion h2 n0) := by
      intro hs
      obtain ⟨s1, s2, s3, s4⟩ := hs
      refine ⟨s1, ?_, s3, s4⟩
      intro b hb
      rw [s2 b hb]
      exact w3 b hb
    have hassign : ∀ v0 : JsonV,
        (match Heap.get hm p with
         | none => none
         | some entries =>
             match allocVal fuel v0 hm with
             | none => none
             | some q => some (Heap.set q.2 p
                 (setEntry entries ((splitDot path).getLastD "") q.1))) = some h2 →
        (n0 ≤ h2.next ∧ (∀ b, b < n0 → h2.get b = h.get b) ∧
         Heap.Closed h2 ∧ Heap.HighRegion h2 n0) := by
      intro v0 hsp2
      rcases hgm : Heap.get hm p with _ | entries
      · rw [hgm] at hsp2
        exact Option.noConfusion hsp2
      · rw [hgm] at hsp2
        have hsp3 : (match allocVal fuel v0 hm with
            | none => none
            | some q => some (Heap.set q.2 p
                (setEntry entries ((splitDot path).getLastD "") q.1))) = some h2 := hsp2
        exact hcompose (setPath_assign_ok n0 fuel hm p _ v0 entries h2 hgm hsp3 w1 w4 w5 w6)
    rcases v with _ | b0 | q0 | s0 | fs0 | es0
    · -- null: pop the final key
      have hsp2 : (match Heap.get hm p with
          | none => none
          | some entries => some (Heap.set hm p
              (entries.filter (fun kv => !(kv.1 == (splitDot path).getLastD ""))))) =
          some h2 := hsp
      rcases hgm : Heap.get hm p with _ | entries
      · rw [hgm] at hsp2
        exact Option.noConfusion hsp2
      · rw [hgm] at hsp2
        have hset : Heap.set hm p
            (entries.filter (fun kv => !(kv.1 == (splitDot path).getLastD ""))) = h2 :=
          Option.some.inj hsp2
        subst hset
        obtain ⟨hplt, hpall⟩ := w5 p entries hgm
        apply hcompose
        refine ⟨w1, ?_, ?_, ?_⟩
        · intro b hb
          rw [Heap.get_set]
          rw [if_neg (by omega)]
        · intro c o hgetc
          rw [Heap.get_set] at hgetc
          by_cases hpc : p = c
          · rw [if_pos hpc] at hgetc
            have ho := Option.some.inj hgetc
            subst ho
            constructor
            · show c < hm.next
              omega
            · exact filter_all _ _ _ hpall
          · rw [if_neg hpc] at hgetc
            exact w5 c o hgetc
        · intro c o hc hgetc
          rw [Heap.get_set] at hgetc
          by_cases hpc : p = c
          · rw [if_pos hpc] at hgetc
            have ho := Option.some.inj hgetc
            subst ho
            exact filter_all _ _ _ (w6 p entries w4 hgm)
          · rw [if_neg hpc] at hgetc
            exact w6 c o hc hgetc
    · exact hassign (JsonV.bool b0) hsp
    · exact hassign (JsonV.num q0) hsp
    · exact hassign (JsonV.str s0) hsp
    · exact hassign (JsonV.obj fs0) hsp
    · exact hassign (JsonV.arr es0) hsp

/-- The whole override fold preserves the region structure. -/
theorem foldOverrides_spec (n0 fuel : Nat) (root : Nat) :
    ∀ (ovs : List (String × JsonV)) (h h2 : Heap),
      List.foldlM (fun hh kv => setPath fuel hh root kv.1 kv.2) h ovs = some h2 →
      n0 ≤ h.next → n0 ≤ root → Heap.Closed h → Heap.HighRegion h n0 →
      (n0 ≤ h2.next ∧ (∀ b, b < n0 → h2.get b = h.get b) ∧
       Heap.Closed h2 ∧ Heap.HighRegion h2 n0) := by
  intro ovs
  induction ovs with
  | nil =>
      intro h h2 hf hn hr hcl hhr
      have hh : h = h2 := Option.some.inj hf
      subst hh
      exact ⟨hn, fun b _ => rfl, hcl, hhr⟩
  | cons kv rest ih =>
      intro h h2 hf hn hr hcl hhr
      rw [List.foldlM_cons] at hf
      rcases hsp : setPath fuel h root kv.1 kv.2 with _ | hm
      · rw [hsp] at hf
        exact Option.noConfusion hf
      · rw [hsp] at hf
        have hf2 : List.foldlM (fun hh kv => setPath fuel hh root kv.1 kv.2) hm rest
            = some h2 := hf
        obtain ⟨s1, s2, s3, s4⟩ := setPath_spec n0 fuel h root kv.1 kv.2 hm hsp hn hr hcl hhr
        obtain ⟨t1, t2, t3, t4⟩ := ih hm h2 hf2 s1 hr s3 s4
        refine ⟨t1, ?_, t3, t4⟩
        intro b hb
        rw [t2 b hb]
        exact s2 b hb

theorem apply_overrides_shape (fuel : Nat) (h : Heap) (a : Nat) (t : JsonV)
    (ovs : List (String × JsonV)) (r : Nat) (h2 : Heap)
    (hrd : readVal fuel h (HVal.ref a) = some t)
    (hap : apply_overrides fuel h a ovs = some (r, h2)) :
    ∃ hc : Heap, allocVal fuel t h = some (HVal.ref r, hc) ∧
      List.foldlM (fun hh kv => setPath fuel hh r kv.1 kv.2) hc ovs = some h2 := by
  unfold apply_overrides at hap
  unfold deepcopyAddr at hap
  rw [hrd] at hap
  have hap1 : (match (match allocVal fuel t h with
      | some (HVal.ref r1, h3) => some (r1, h3)
      | _ => none : Option (Nat × Heap)) with
    | none => none
    | some pr =>
        match List.foldlM (fun hh kv => setPath fuel hh pr.1 kv.1 kv.2) pr.2 ovs with
        | none => none
        | some h3 => some (pr.1, h3)) = some (r, h2) := hap
  rcases hav : allocVal fuel t h with _ | ⟨w, hc⟩
  · rw [hav] at hap1
    exact Option.noConfusion hap1
  · rw [hav] at hap1
    rcases w with r0 | wv
    · have hap2 : (match List.foldlM (fun hh kv => setPath fuel hh r0 kv.1 kv.2) hc ovs with
          | none => none
          | some h3 => some (r0, h3)) = some (r, h2) := hap1
      rcases hfold : List.foldlM (fun hh kv => setPath fuel hh r0 kv.1 kv.2) hc ovs
          with _ | h3
      · rw [hfold] at hap2
        exact Option.noConfusion hap2
      · rw [hfold] at hap2
        have hp := Option.some.inj hap2
        have hr0 : r0 = r := congrArg Prod.fst hp
        have hh3 : h3 = h2 := congrArg Prod.snd hp
        subst hr0
        subst hh3
        exact ⟨hc, rfl, hfold⟩
    · exact Option.noConfusion hap1

/-- C9: `apply_overrides` never mutates the base document — after every
successful run, over any override map, the base address still reads back
as the original tree (including all nested mappings) — and with an empty
override map the returned document is value-equal to a deep copy of the
base. -/
theorem apply_overrides_preserves_base :
    (∀ (fuel : Nat) (h : Heap) (a : Nat) (t : JsonV) (ovs : List (String × JsonV))
        (r : Nat) (h2 : Heap),
      Heap.wfb h = true →
      readVal fuel h (HVal.ref a) = some t →
      apply_overrides fuel h a ovs = some (r, h2) →
      readVal fuel h2 (HVal.ref a) = some t) ∧
    (∀ (fuel : Nat) (h : Heap) (a : Nat) (t : JsonV) (r : Nat) (h2 : Heap),
      Heap.wfb h = true →
      readVal fuel h (HVal.ref a) = some t →
      apply_overrides fuel h a [] = some (r, h2) →
      readVal fuel h2 (HVal.ref r) = some t) := by
  constructor
  · intro fuel h a t ovs r h2 hwf hrd hap
    have hcl : Heap.Closed h := closed_of_wfb h hwf
    obtain ⟨hc, hav, hfold⟩ := apply_overrides_shape fuel h a t ovs r h2 hrd hap
    obtain ⟨a1, a2, ⟨a3b, a3g⟩, a4, _⟩ := (allocVal_spec fuel).1 t h (HVal.ref r) hc hav
    have hclc : Heap.Closed hc := closed_of_extend h hc a1 a4 hcl
    have hhrc : Heap.HighRegion hc h.next := by
      intro c o hcge hgetc
      rcases a4 c o hgetc with hold | hnew
      · obtain ⟨hlt, _⟩ := hcl c o hold
        exact absurd hlt (by omega)
      · obtain ⟨g1, g2, g3⟩ := hnew
        apply all_mono _ _ _ ?_ g3
        intro kv _ hkv
        rw [Bool.and_eq_true] at hkv
        exact hkv.2
    have hrge : h.next ≤ r := by
      simpa [hvalGE] using a3g
    obtain ⟨f1, f2, f3, f4⟩ :=
      foldOverrides_spec h.next fuel r ovs hc h2 hfold a1 hrge hclc hhrc
    have halt : a < h.next := by
      cases fuel with
      | zero => exact absurd hrd (by simp [readVal])
      | succ fuel =>
          have hrd2 : (match Heap.get h a with
              | none => none
              | some entries =>
                  (readEntries (fun w => readVal fuel h w) entries).map JsonV.obj)
              = some t := hrd
          rcases hga : Heap.get h a with _ | entries
          · rw [hga] at hrd2
            exact absurd hrd2 (by simp)
          · exact (hcl a entries hga).1
    have hagree : ∀ b, b < h.next → Heap.get h2 b = Heap.get h b := by
      intro b hb
      rw [f2 b hb]
      exact a2 b hb
    rw [readVal_agree h.next fuel h h2 (HVal.ref a) hagree
        (fun b ob hb => (hcl b ob hb).2) (by simpa [hvalBelow] using halt)]
    exact hrd
  · intro fuel h a t r h2 hwf hrd hap
    have hcl : Heap.Closed h := closed_of_wfb h hwf
    obtain ⟨hc, hav, hfold⟩ := apply_overrides_shape fuel h a t [] r h2 hrd hap
    have hch : hc = h2 := Option.some.inj hfold
    subst hch
    obtain ⟨_, _, _, _, a5⟩ := (allocVal_spec fuel).1 t h (HVal.ref r) hc hav
    exact a5 hcl

/-- Witness for C9: a concrete two-level base document, run once with a
popping override and once with the empty override map; in both runs the
base at address 0 still reads back as the original tree, and the empty
run's result is value-equal to the base. -/
theorem apply_overrides_preserves_base_witness :
    Heap.wfb c9h0 = true ∧
    readVal 10 c9h0 (HVal.ref 0) = some c9base ∧
    apply_overrides 10 c9h0 0 c9ovs =
      some (((apply_overrides 10 c9h0 0 c9ovs).getD (0, c9h0)).1,
            ((apply_overrides 10 c9h0 0 c9ovs).getD (0, c9h0)).2) ∧
    readVal 10 ((apply_overrides 10 c9h0 0 c9ovs).getD (0, c9h0)).2 (HVal.ref 0) =
      some c9base ∧
    apply_overrides 10 c9h0 0 [] =
      some (((apply_overrides 10 c9h0 0 []).getD (0, c9h0)).1,
            ((apply_overrides 10 c9h0 0 []).getD (0, c9h0)).2) ∧
    readVal 10 ((apply_overrides 10 c9h0 0 []).getD (0, c9h0)).2
      (HVal.ref ((apply_overrides 10 c9h0 0 []).getD (0, c9h0)).1) = some c9base :=
  ⟨by decide, rfl, rfl,
   apply_overrides_preserves_base.1 10 c9h0 0 c9base c9ovs _ _ (by decide) rfl rfl,
   rfl,
   apply_overrides_preserves_base.2 10 c9h0 0 c9base _ _ (by decide) rfl rfl⟩

end RunForge
